import Mathlib

/-!
Verification of the URL query-parameter merge function of the helpers
repository: `encodeUrl` in `src/string.ts` (the spec's `mergeUrlParams`),
together with the variadic wrapper `encodeUrlParams` exercised by
`src/string.test.ts`.

The TypeScript function delegates URL parsing and query handling to the
WHATWG `URL` / `URLSearchParams` standard library.  Those collaborators are
embedded here at the level of detail the function exercises:

* query strings use `application/x-www-form-urlencoded` parsing and
  serialization (UTF-8 percent-encoding, space encoded as `+`);
* `URLSearchParams.set` updates the first entry carrying the given key in
  place and drops later duplicates, appending at the end when the key is
  new; `URLSearchParams.delete` drops every entry with the key;
* URL records carry a scheme, an authority (taken verbatim up to the next
  `/`, `?` or `#`; userinfo and port validation, IDNA and host
  percent-decoding are not modelled), a verbatim path (WHATWG path
  percent-encoding and dot-segment removal are not modelled), the parsed
  query parameters and a fragment (stored with the WHATWG fragment
  percent-encode set applied);
* special schemes require a nonempty authority (parse failure otherwise);
  the `file` scheme's special parsing states are not modelled.

JavaScript numbers are modelled as decimal-exact values (an integer part
and a string of fraction digits), matching `String(n)` on numbers whose
shortest representation is that decimal form; `NaN`, the infinities and
negative zero are outside the model.  JavaScript object literals are
modelled as association lists in insertion order, matching
`Object.entries` for non-integer-like string keys.
-/

abbrev Chars := List Char

/-- Split at the first occurrence of `c`: the part before it, and the
remainder after it (`none` when `c` does not occur). -/
def splitFirst (c : Char) : Chars → Chars × Option Chars
  | [] => ([], none)
  | x :: xs =>
    if x = c then ([], some xs)
    else
      let r := splitFirst c xs
      (x :: r.1, r.2)

/-- Splitting at every occurrence of `c`, with the piece being built in
reverse as the accumulator. -/
def splitAllAux (c : Char) : Chars → Chars → List Chars
  | acc, [] => [acc.reverse]
  | acc, x :: xs =>
    if x = c then acc.reverse :: splitAllAux c [] xs
    else splitAllAux c (x :: acc) xs

/-- Split at every occurrence of `c`. -/
def splitAll (c : Char) (s : Chars) : List Chars :=
  splitAllAux c [] s

/-- Hexadecimal digit character code, uppercase (input below 16). -/
def hexDigitCode (d : Nat) : Nat :=
  if d < 10 then 48 + d else 55 + d

/-- Value of a hexadecimal digit character code, both cases. -/
def hexVal (b : Nat) : Option Nat :=
  if 48 ≤ b ∧ b ≤ 57 then some (b - 48)
  else if 65 ≤ b ∧ b ≤ 70 then some (b - 55)
  else if 97 ≤ b ∧ b ≤ 102 then some (b - 87)
  else none

/-- UTF-8 bytes of one scalar value. -/
def utf8Char (c : Char) : List Nat :=
  let n := c.toNat
  if n < 0x80 then [n]
  else if n < 0x800 then [0xC0 + n / 64, 0x80 + n % 64]
  else if n < 0x10000 then
    [0xE0 + n / 4096, 0x80 + n / 64 % 64, 0x80 + n % 64]
  else
    [0xF0 + n / 262144, 0x80 + n / 4096 % 64, 0x80 + n / 64 % 64, 0x80 + n % 64]

/-- UTF-8 bytes of a scalar-value sequence. -/
def utf8Encode (s : Chars) : List Nat :=
  s.foldr (fun c acc => utf8Char c ++ acc) []

/-- Continuation byte test. -/
def contByte (b : Nat) : Bool := 0x80 ≤ b && b ≤ 0xBF

/-- The replacement character U+FFFD. -/
def repl : Char := Char.ofNat 0xFFFD

/-- State of the WHATWG UTF-8 decoder: continuation bytes still needed, the
code point accumulated so far, and the bounds for the next continuation
byte (tightened after `E0`/`ED`/`F0`/`F4` lead bytes). -/
structure U8State where
  need : Nat
  cp : Nat
  lo : Nat
  hi : Nat
deriving Repr, DecidableEq

/-- The decoder's initial state. -/
def u8Init : U8State := ⟨0, 0, 0x80, 0xBF⟩

/-- Handle one byte in the lead position. -/
def u8Lead (b : Nat) : Chars × U8State :=
  if b < 0x80 then ([Char.ofNat b], u8Init)
  else if 0xC2 ≤ b ∧ b ≤ 0xDF then ([], ⟨1, b - 0xC0, 0x80, 0xBF⟩)
  else if 0xE0 ≤ b ∧ b ≤ 0xEF then
    ([], ⟨2, b - 0xE0, if b = 0xE0 then 0xA0 else 0x80,
          if b = 0xED then 0x9F else 0xBF⟩)
  else if 0xF0 ≤ b ∧ b ≤ 0xF4 then
    ([], ⟨3, b - 0xF0, if b = 0xF0 then 0x90 else 0x80,
          if b = 0xF4 then 0x8F else 0xBF⟩)
  else ([repl], u8Init)

/-- Handle one byte: either a lead byte or a continuation byte; an
out-of-bounds continuation emits U+FFFD and reprocesses the byte as a lead
byte, per the WHATWG decoder. -/
def u8Step (st : U8State) (b : Nat) : Chars × U8State :=
  if st.need = 0 then u8Lead b
  else if st.lo ≤ b ∧ b ≤ st.hi then
    let cp := st.cp * 64 + (b - 0x80)
    if st.need = 1 then ([Char.ofNat cp], u8Init)
    else ([], ⟨st.need - 1, cp, 0x80, 0xBF⟩)
  else
    let r := u8Lead b
    (repl :: r.1, r.2)

/-- Run the decoder over a byte sequence; a truncated final sequence emits
one U+FFFD. -/
def u8Run (st : U8State) : List Nat → Chars
  | [] => if st.need = 0 then [] else [repl]
  | b :: rest =>
    let r := u8Step st b
    r.1 ++ u8Run r.2 rest

/-- UTF-8 decoding with replacement-character error handling. -/
def utf8Decode (bs : List Nat) : Chars := u8Run u8Init bs

/-- Percent-decoding on bytes: a `%` followed by two hex digits becomes the
byte; malformed escapes pass through verbatim. -/
def percentDecode : List Nat → List Nat
  | [] => []
  | 37 :: a :: b :: rest =>
    match hexVal a, hexVal b with
    | some ha, some hb => (16 * ha + hb) :: percentDecode rest
    | _, _ => 37 :: percentDecode (a :: b :: rest)
  | x :: rest => x :: percentDecode rest

/-- The `application/x-www-form-urlencoded` safe bytes: ASCII alphanumeric
and `*`, `-`, `.`, `_`. -/
def safeByte (b : Nat) : Bool :=
  (48 ≤ b && b ≤ 57) || (65 ≤ b && b ≤ 90) || (97 ≤ b && b ≤ 122) ||
    b == 42 || b == 45 || b == 46 || b == 95

/-- Form-urlencoded serialization of one byte (ASCII codes): safe bytes pass,
space becomes `+`, everything else `%XX`. -/
def formEncodeByte (b : Nat) : List Nat :=
  if safeByte b then [b]
  else if b == 32 then [43]
  else [37, hexDigitCode (b / 16 % 16), hexDigitCode (b % 16)]

/-- Form-urlencoded serialization of a byte sequence, as ASCII codes. -/
def formEncodeBytes (bs : List Nat) : List Nat :=
  bs.foldr (fun b acc => formEncodeByte b ++ acc) []

/-- Raw code points to characters. -/
def bytesToChars (bs : List Nat) : Chars := bs.map Char.ofNat

/-- Form-urlencoded serialization of a string's characters. -/
def formEncodeChars (s : Chars) : Chars :=
  bytesToChars (formEncodeBytes (utf8Encode s))

/-- `+` to space on bytes, the first decoding step of form-urlencoded. -/
def plusToSpace (bs : List Nat) : List Nat :=
  bs.map fun b => if b == 43 then 32 else b

/-- Form-urlencoded decoding of a component. -/
def formDecodeChars (s : Chars) : Chars :=
  utf8Decode (percentDecode (plusToSpace (utf8Encode s)))

example : formEncodeChars "foo bar".data = "foo+bar".data := by decide
example : formDecodeChars "foo+bar".data = "foo bar".data := by decide
example : formEncodeChars "a&b=c?d#e+".data = "a%26b%3Dc%3Fd%23e%2B".data := by
  decide

theorem charToNat_ofNat {n : Nat} (h : n < 0xD800) : (Char.ofNat n).toNat = n := by
  simp [Char.ofNat, Char.toNat, Nat.isValidChar, h, Char.ofNatAux, UInt32.toNat, UInt32.ofNatCore]

theorem charToNat_valid (c : Char) : c.toNat < 0xD800 ∨ (0xE000 ≤ c.toNat ∧ c.toNat < 0x110000) := by
  rcases c with ⟨v, hv⟩
  rcases hv with h | ⟨h1, h2⟩
  · left; exact h
  · right; exact ⟨h1, h2⟩

theorem charOfNat_toNat (c : Char) : Char.ofNat c.toNat = c := by
  rcases c with ⟨v, hv⟩
  apply Char.ext
  have hval : Nat.isValidChar v.toNat := hv
  simp [Char.ofNat, Char.toNat, hval, Char.ofNatAux, UInt32.ofNatCore]
  apply UInt32.ext
  simp [UInt32.toNat]

theorem u8Run_utf8Char (c : Char) (rest : List Nat) :
    u8Run u8Init (utf8Char c ++ rest) = c :: u8Run u8Init rest := by
  have hv := charToNat_valid c
  have hofn := charOfNat_toNat c
  by_cases h1 : c.toNat < 0x80
  · simp [utf8Char, h1, u8Run, u8Step, u8Init, u8Lead, hofn]
  · by_cases h2 : c.toNat < 0x800
    · have e1 : utf8Char c = [0xC0 + c.toNat / 64, 0x80 + c.toNat % 64] := by
        simp [utf8Char, h1, h2]
      have hb1a : ¬ (0xC0 + c.toNat / 64 < 0x80) := by omega
      have hb1b : 0xC2 ≤ 0xC0 + c.toNat / 64 ∧ 0xC0 + c.toNat / 64 ≤ 0xDF := by omega
      have hb2 : 0x80 ≤ 0x80 + c.toNat % 64 ∧ 0x80 + c.toNat % 64 ≤ 0xBF := by omega
      have hval : c.toNat / 64 * 64 + c.toNat % 64 = c.toNat := by omega
      simp [e1, u8Run, u8Step, u8Init, u8Lead, hb1a, hb1b, hb2, hval, hofn]
    · by_cases h3 : c.toNat < 0x10000
      · have e1 : utf8Char c = [0xE0 + c.toNat / 4096, 0x80 + c.toNat / 64 % 64, 0x80 + c.toNat % 64] := by
          simp [utf8Char, h1, h2, h3]
        have hb1a : ¬ (0xE0 + c.toNat / 4096 < 0x80) := by omega
        have hb1b : ¬ (0xC2 ≤ 0xE0 + c.toNat / 4096 ∧ 0xE0 + c.toNat / 4096 ≤ 0xDF) := by omega
        have hb1c : 0xE0 ≤ 0xE0 + c.toNat / 4096 ∧ 0xE0 + c.toNat / 4096 ≤ 0xEF := by omega
        have hb2lo : (if c.toNat / 4096 = 0 then (0xA0 : Nat) else 0x80) ≤ 0x80 + c.toNat / 64 % 64 := by
          rcases hv with hlt | ⟨hge, hmax⟩ <;> split_ifs <;> omega
        have hb2hi : 0x80 + c.toNat / 64 % 64 ≤ (if (0xE0 + c.toNat / 4096 : Nat) = 0xED then (0x9F : Nat) else 0xBF) := by
          rcases hv with hlt | ⟨hge, hmax⟩ <;> split_ifs <;> omega
        have hb3 : (0x80 : Nat) ≤ 0x80 + c.toNat % 64 ∧ 0x80 + c.toNat % 64 ≤ 0xBF := by omega
        have hval : (c.toNat / 4096 * 64 + c.toNat / 64 % 64) * 64 + c.toNat % 64 = c.toNat := by omega
        simp [e1, u8Run, u8Step, u8Init, u8Lead, hb1a, hb1b, hb1c, hb2lo, hb2hi, hb3, hval, hofn]
      · have h4 : c.toNat < 0x110000 := by rcases hv with hlt | ⟨hge, hmax⟩ <;> omega
        have e1 : utf8Char c = [0xF0 + c.toNat / 262144, 0x80 + c.toNat / 4096 % 64,
            0x80 + c.toNat / 64 % 64, 0x80 + c.toNat % 64] := by
          simp [utf8Char, h1, h2, h3]
        have hb1a : ¬ (0xF0 + c.toNat / 262144 < 0x80) := by omega
        have hb1b : ¬ (0xC2 ≤ 0xF0 + c.toNat / 262144 ∧ 0xF0 + c.toNat / 262144 ≤ 0xDF) := by omega
        have hb1c : ¬ (0xE0 ≤ 0xF0 + c.toNat / 262144 ∧ 0xF0 + c.toNat / 262144 ≤ 0xEF) := by omega
        have hb1d : 0xF0 ≤ 0xF0 + c.toNat / 262144 ∧ 0xF0 + c.toNat / 262144 ≤ 0xF4 := by omega
        have hb2lo : (if c.toNat / 262144 = 0 then (0x90 : Nat) else 0x80) ≤ 0x80 + c.toNat / 4096 % 64 := by
          split_ifs <;> omega
        have hb2hi : 0x80 + c.toNat / 4096 % 64 ≤ (if (0xF0 + c.toNat / 262144 : Nat) = 0xF4 then (0x8F : Nat) else 0xBF) := by
          split_ifs <;> omega
        have hb3 : (0x80 : Nat) ≤ 0x80 + c.toNat / 64 % 64 ∧ 0x80 + c.toNat / 64 % 64 ≤ 0xBF := by omega
        have hb4 : (0x80 : Nat) ≤ 0x80 + c.toNat % 64 ∧ 0x80 + c.toNat % 64 ≤ 0xBF := by omega
        have hval : ((c.toNat / 262144 * 64 + c.toNat / 4096 % 64) * 64 + c.toNat / 64 % 64) * 64 + c.toNat % 64 = c.toNat := by omega
        simp [e1, u8Run, u8Step, u8Init, u8Lead, hb1a, hb1b, hb1c, hb1d, hb2lo, hb2hi, hb3, hb4, hval, hofn]

theorem utf8Encode_cons (c : Char) (s : Chars) :
    utf8Encode (c :: s) = utf8Char c ++ utf8Encode s := rfl

theorem utf8Decode_encode_append (s : Chars) (bs : List Nat) :
    utf8Decode (utf8Encode s ++ bs) = s ++ utf8Decode bs := by
  induction s with
  | nil => rfl
  | cons c cs ih =>
    rw [utf8Encode_cons, List.append_assoc]
    show u8Run u8Init (utf8Char c ++ (utf8Encode cs ++ bs)) = _
    rw [u8Run_utf8Char]
    exact congrArg _ ih

theorem utf8Decode_encode (s : Chars) : utf8Decode (utf8Encode s) = s := by
  have h := utf8Decode_encode_append s []
  simpa [utf8Decode, u8Run, u8Init] using h

theorem utf8Char_lt_256 {c : Char} {b : Nat} (h : b ∈ utf8Char c) : b < 256 := by
  have hv := charToNat_valid c
  dsimp only [utf8Char] at h
  split_ifs at h <;> simp at h <;> omega

theorem utf8Encode_lt_256 {s : Chars} {b : Nat} (h : b ∈ utf8Encode s) : b < 256 := by
  induction s with
  | nil => simp [utf8Encode] at h
  | cons c cs ih =>
    rw [utf8Encode_cons] at h
    rcases List.mem_append.mp h with h1 | h2
    · exact utf8Char_lt_256 h1
    · exact ih h2

theorem hexVal_hexDigitCode {d : Nat} (h : d < 16) : hexVal (hexDigitCode d) = some d := by
  unfold hexDigitCode hexVal
  split_ifs <;> (try simp) <;> omega

theorem hexDigitCode_range {d : Nat} (h : d < 16) :
    (48 ≤ hexDigitCode d ∧ hexDigitCode d ≤ 57) ∨
      (65 ≤ hexDigitCode d ∧ hexDigitCode d ≤ 70) := by
  unfold hexDigitCode
  split_ifs <;> omega

theorem percentDecode_cons_ne {x : Nat} (h : x ≠ 37) (l : List Nat) :
    percentDecode (x :: l) = x :: percentDecode l := by
  rw [percentDecode.eq_def]
  split
  · simp_all
  · simp_all
  · simp_all

theorem percentDecode_escape {a b va vb : Nat} (ha : hexVal a = some va)
    (hb : hexVal b = some vb) (l : List Nat) :
    percentDecode (37 :: a :: b :: l) = (16 * va + vb) :: percentDecode l := by
  simp [percentDecode, ha, hb]

theorem safeByte_range {b : Nat} (h : safeByte b = true) :
    (48 ≤ b ∧ b ≤ 57) ∨ (65 ≤ b ∧ b ≤ 90) ∨ (97 ≤ b ∧ b ≤ 122) ∨
      b = 42 ∨ b = 45 ∨ b = 46 ∨ b = 95 := by
  simp [safeByte] at h
  omega

theorem formEncodeByte_ascii {b x : Nat} (hb : b < 256) (h : x ∈ formEncodeByte b) :
    x < 0x80 := by
  unfold formEncodeByte at h
  split_ifs at h with h1 h2
  · simp at h
    have := safeByte_range h1
    omega
  · simp at h
    omega
  · simp at h
    have r1 := hexDigitCode_range (d := b / 16 % 16) (by omega)
    have r2 := hexDigitCode_range (d := b % 16) (by omega)
    omega

theorem formEncodeBytes_cons (b : Nat) (bs : List Nat) :
    formEncodeBytes (b :: bs) = formEncodeByte b ++ formEncodeBytes bs := rfl

theorem formEncodeBytes_ascii {bs : List Nat} {x : Nat}
    (hb : ∀ b ∈ bs, b < 256) (h : x ∈ formEncodeBytes bs) : x < 0x80 := by
  induction bs with
  | nil => simp [formEncodeBytes] at h
  | cons b rest ih =>
    rw [formEncodeBytes_cons] at h
    rcases List.mem_append.mp h with h1 | h2
    · exact formEncodeByte_ascii (hb b (by simp)) h1
    · exact ih (fun y hy => hb y (List.mem_cons_of_mem _ hy)) h2

theorem utf8Char_ascii {b : Nat} (h : b < 0x80) : utf8Char (Char.ofNat b) = [b] := by
  have ht : (Char.ofNat b).toNat = b := charToNat_ofNat (by omega)
  simp [utf8Char, ht, h]

theorem utf8Encode_bytesToChars {bs : List Nat} (h : ∀ b ∈ bs, b < 0x80) :
    utf8Encode (bytesToChars bs) = bs := by
  induction bs with
  | nil => rfl
  | cons b rest ih =>
    have hb : b < 0x80 := h b (by simp)
    show utf8Encode (Char.ofNat b :: bytesToChars rest) = b :: rest
    rw [utf8Encode_cons, utf8Char_ascii hb,
      ih (fun y hy => h y (List.mem_cons_of_mem _ hy))]
    rfl

theorem plusToSpace_append (a b : List Nat) :
    plusToSpace (a ++ b) = plusToSpace a ++ plusToSpace b := by
  simp [plusToSpace]

theorem plusToSpace_cons (b : Nat) (bs : List Nat) :
    plusToSpace (b :: bs) = (if b = 43 then 32 else b) :: plusToSpace bs := by
  by_cases h : b = 43 <;> simp [plusToSpace, h]

theorem formRound_byte {b : Nat} (hb : b < 256) (bs : List Nat) :
    percentDecode (plusToSpace (formEncodeByte b ++ bs)) =
      b :: percentDecode (plusToSpace bs) := by
  unfold formEncodeByte
  split_ifs with h1 h2
  · have hr := safeByte_range h1
    rw [List.singleton_append, plusToSpace_cons, if_neg (by omega),
      percentDecode_cons_ne (by omega)]
  · simp at h2
    subst h2
    rw [List.singleton_append, plusToSpace_cons, if_pos rfl,
      percentDecode_cons_ne (by omega)]
  · have hq1 : b / 16 % 16 < 16 := by omega
    have hq2 : b % 16 < 16 := by omega
    have d1 := hexDigitCode_range hq1
    have d2 := hexDigitCode_range hq2
    rw [show (37 : Nat) :: hexDigitCode (b / 16 % 16) :: hexDigitCode (b % 16) :: [] ++ bs =
          37 :: hexDigitCode (b / 16 % 16) :: hexDigitCode (b % 16) :: bs from rfl,
      plusToSpace_cons, if_neg (by omega), plusToSpace_cons, if_neg (by omega),
      plusToSpace_cons, if_neg (by omega),
      percentDecode_escape (hexVal_hexDigitCode hq1) (hexVal_hexDigitCode hq2)]
    have hv : 16 * (b / 16 % 16) + b % 16 = b := by omega
    rw [hv]

theorem formRound_bytes {bs : List Nat} (h : ∀ b ∈ bs, b < 256) :
    percentDecode (plusToSpace (formEncodeBytes bs)) = bs := by
  induction bs with
  | nil => rfl
  | cons b rest ih =>
    rw [formEncodeBytes_cons, formRound_byte (h b (by simp)),
      ih (fun y hy => h y (List.mem_cons_of_mem _ hy))]

theorem formDecode_formEncode (s : Chars) :
    formDecodeChars (formEncodeChars s) = s := by
  unfold formDecodeChars formEncodeChars
  rw [utf8Encode_bytesToChars
      (fun y hy => formEncodeBytes_ascii (fun b hb => utf8Encode_lt_256 hb) hy)]
  rw [formRound_bytes (fun b hb => utf8Encode_lt_256 hb)]
  exact utf8Decode_encode s

/-- Serialize one key/value pair as `key=value`, form-urlencoded. -/
def serializePair (kv : String × String) : Chars :=
  formEncodeChars kv.1.data ++ '=' :: formEncodeChars kv.2.data

/-- Join pieces with `&`, auxiliary. -/
def joinAmpAux (x : Chars) : List Chars → Chars
  | [] => x
  | y :: ys => x ++ '&' :: joinAmpAux y ys

/-- Join pieces with `&`. -/
def joinAmp : List Chars → Chars
  | [] => []
  | x :: xs => joinAmpAux x xs

/-- Parse one `name=value` piece of a query string (no `=` means an empty
value), form-urldecoded. -/
def parseQueryPiece (piece : Chars) : String × String :=
  let r := splitFirst '=' piece
  (String.mk (formDecodeChars r.1), String.mk (formDecodeChars (r.2.getD [])))

/-- Parse a query string: split on `&`, drop empty pieces, parse each piece.
This is the WHATWG `application/x-www-form-urlencoded` parser. -/
def parseQueryChars (q : Chars) : List (String × String) :=
  ((splitAll '&' q).filter (fun p => !p.isEmpty)).map parseQueryPiece

theorem strMk_data (s : String) : String.mk s.data = s := rfl

theorem splitFirst_not_mem {c : Char} {s : Chars} (h : c ∉ s) :
    splitFirst c s = (s, none) := by
  induction s with
  | nil => rfl
  | cons x xs ih =>
    have hx : x ≠ c := fun he => h (by simp [he])
    have hxs : c ∉ xs := fun he => h (by simp [he])
    simp [splitFirst, hx, ih hxs]

theorem splitFirst_append {c : Char} {a : Chars} (h : c ∉ a) (b : Chars) :
    splitFirst c (a ++ c :: b) = (a, some b) := by
  induction a with
  | nil => simp [splitFirst]
  | cons x xs ih =>
    have hx : x ≠ c := fun he => h (by simp [he])
    have hxs : c ∉ xs := fun he => h (by simp [he])
    simp [splitFirst, hx, ih hxs]

theorem splitAllAux_not_mem {c : Char} {s : Chars} (h : c ∉ s) (acc : Chars) :
    splitAllAux c acc s = [acc.reverse ++ s] := by
  induction s generalizing acc with
  | nil => simp [splitAllAux]
  | cons x xs ih =>
    have hx : x ≠ c := fun he => h (by simp [he])
    have hxs : c ∉ xs := fun he => h (by simp [he])
    simp [splitAllAux, hx, ih hxs]

theorem splitAllAux_append {c : Char} {a : Chars} (h : c ∉ a) (acc b : Chars) :
    splitAllAux c acc (a ++ c :: b) = (acc.reverse ++ a) :: splitAll c b := by
  induction a generalizing acc with
  | nil => simp [splitAllAux, splitAll]
  | cons x xs ih =>
    have hx : x ≠ c := fun he => h (by simp [he])
    have hxs : c ∉ xs := fun he => h (by simp [he])
    simp [splitAllAux, hx, ih hxs]

theorem splitAll_not_mem {c : Char} {s : Chars} (h : c ∉ s) :
    splitAll c s = [s] := by
  simpa using splitAllAux_not_mem h []

theorem splitAll_append {c : Char} {a : Chars} (h : c ∉ a) (b : Chars) :
    splitAll c (a ++ c :: b) = a :: splitAll c b := by
  simpa [splitAll] using splitAllAux_append h [] b

theorem formEncodeBytes_not_delim {bs : List Nat} {x : Nat}
    (hb : ∀ b ∈ bs, b < 256) (h : x ∈ formEncodeBytes bs) :
    x ≠ 38 ∧ x ≠ 61 ∧ x ≠ 35 ∧ x ≠ 63 := by
  induction bs with
  | nil => simp [formEncodeBytes] at h
  | cons b rest ih =>
    rw [formEncodeBytes_cons] at h
    rcases List.mem_append.mp h with h1 | h2
    · unfold formEncodeByte at h1
      split_ifs at h1 with hs h32
      · simp at h1
        subst h1
        have := safeByte_range hs
        omega
      · simp at h1
        omega
      · have hq1 := hexDigitCode_range (d := b / 16 % 16) (by omega)
        have hq2 := hexDigitCode_range (d := b % 16) (by omega)
        simp at h1
        omega
    · exact ih (fun y hy => hb y (List.mem_cons_of_mem _ hy)) h2

theorem mem_formEncodeChars {s : Chars} {x : Char} (h : x ∈ formEncodeChars s) :
    x ≠ '&' ∧ x ≠ '=' ∧ x ≠ '#' ∧ x ≠ '?' := by
  unfold formEncodeChars bytesToChars at h
  rcases List.mem_map.mp h with ⟨b, hb, rfl⟩
  have hlt : b < 256 := by
    exact formEncodeBytes_ascii (fun y hy => utf8Encode_lt_256 hy) hb |>.trans (by omega)
  have hd := formEncodeBytes_not_delim (fun y hy => utf8Encode_lt_256 hy) hb
  have hasc : b < 0x80 := formEncodeBytes_ascii (fun y hy => utf8Encode_lt_256 hy) hb
  have ht : (Char.ofNat b).toNat = b := charToNat_ofNat (by omega)
  refine ⟨?_, ?_, ?_, ?_⟩ <;> intro he <;> rw [he] at ht
  · rw [show ('&' : Char).toNat = 38 from by decide] at ht; omega
  · rw [show ('=' : Char).toNat = 61 from by decide] at ht; omega
  · rw [show ('#' : Char).toNat = 35 from by decide] at ht; omega
  · rw [show ('?' : Char).toNat = 63 from by decide] at ht; omega

theorem mem_serializePair {kv : String × String} {x : Char} (h : x ∈ serializePair kv) :
    x ≠ '&' ∧ x ≠ '#' ∧ x ≠ '?' := by
  unfold serializePair at h
  rcases List.mem_append.mp h with h1 | h1
  · have := mem_formEncodeChars h1
    exact ⟨this.1, this.2.2.1, this.2.2.2⟩
  · rcases List.mem_cons.mp h1 with rfl | h2
    · refine ⟨by decide, by decide, by decide⟩
    · have := mem_formEncodeChars h2
      exact ⟨this.1, this.2.2.1, this.2.2.2⟩

theorem serializePair_ne_nil (kv : String × String) : serializePair kv ≠ [] := by
  unfold serializePair
  intro h
  exact absurd (List.append_eq_nil.mp h).2 (by simp)

theorem parseQueryPiece_serializePair (kv : String × String) :
    parseQueryPiece (serializePair kv) = kv := by
  unfold parseQueryPiece serializePair
  have he : '=' ∉ formEncodeChars kv.1.data := fun hm => (mem_formEncodeChars hm).2.1 rfl
  rw [splitFirst_append he]
  simp [formDecode_formEncode, strMk_data]

theorem parseQuery_round (ps : List (String × String)) :
    parseQueryChars (joinAmp (ps.map serializePair)) = ps := by
  induction ps with
  | nil => rfl
  | cons p rest ih =>
    cases rest with
    | nil =>
      have hamp : '&' ∉ serializePair p := fun hm => (mem_serializePair hm).1 rfl
      simp [parseQueryChars, joinAmp, joinAmpAux, splitAll_not_mem hamp,
        List.filter, serializePair_ne_nil p, parseQueryPiece_serializePair,
        List.isEmpty_iff]
    | cons q qs =>
      have hamp : '&' ∉ serializePair p := fun hm => (mem_serializePair hm).1 rfl
      have hjoin : joinAmp (serializePair p :: serializePair q :: qs.map serializePair) =
          serializePair p ++ '&' :: joinAmp (serializePair q :: qs.map serializePair) := rfl
      simp only [List.map_cons] at ih ⊢
      rw [hjoin]
      unfold parseQueryChars
      rw [splitAll_append hamp]
      have hne : (!(serializePair p).isEmpty) = true := by
        simp [List.isEmpty_iff, serializePair_ne_nil p]
      simp only [List.filter_cons, hne, if_true, List.map_cons]
      rw [parseQueryPiece_serializePair]
      exact congrArg _ ih

/-- The WHATWG fragment percent-encode set: C0 controls, DEL and non-ASCII,
space, double quote, angle brackets and the grave accent (U+0060). -/
def inFragSet (c : Char) : Bool :=
  c.toNat < 0x20 || c.toNat > 0x7E || c.toNat == 32 || c.toNat == 34 ||
    c.toNat == 60 || c.toNat == 62 || c.toNat == 96

/-- Percent-escape one byte as `%XX` (codes). -/
def percentEncByte (b : Nat) : List Nat :=
  [37, hexDigitCode (b / 16 % 16), hexDigitCode (b % 16)]

/-- Percent-encode one character for a fragment. -/
def fragEncodeChar (c : Char) : Chars :=
  if inFragSet c then
    bytesToChars ((utf8Char c).foldr (fun b acc => percentEncByte b ++ acc) [])
  else [c]

/-- Percent-encode a fragment, as the WHATWG fragment state does while
consuming the input. -/
def fragEncode (s : Chars) : Chars :=
  s.foldr (fun c acc => fragEncodeChar c ++ acc) []

/-- The parsed-URL record: scheme (lowercased, no `:`), authority text,
path, parsed query parameters, fragment (percent-encoded, no `#`; empty
means absent). -/
structure URLRec where
  scheme : String
  host : String
  pathname : String
  params : List (String × String)
  frag : String
deriving Repr, DecidableEq

/-- `.search`: `?` plus the serialized parameters, or empty. -/
def renderSearch (ps : List (String × String)) : Chars :=
  if ps.isEmpty then [] else '?' :: joinAmp (ps.map serializePair)

/-- `.hash`: `#` plus the fragment, or empty. -/
def renderHash (frag : String) : Chars :=
  if frag.data.isEmpty then [] else '#' :: frag.data

/-- `.pathname + .search + .hash`, the relative output of `encodeUrl`. -/
def relOut (u : URLRec) : Chars :=
  u.pathname.data ++ renderSearch u.params ++ renderHash u.frag

/-- `.href` for an authority-bearing (special-scheme) URL, the absolute
output of `encodeUrl`. -/
def absOut (u : URLRec) : Chars :=
  u.scheme.data ++ ':' :: '/' :: '/' :: u.host.data ++ u.pathname.data ++
    renderSearch u.params ++ renderHash u.frag

/-- Character-list prefix test. -/
def leadsWithChars : Chars → Chars → Bool
  | [], _ => true
  | _ :: _, [] => false
  | p :: ps, s :: ss => p == s && leadsWithChars ps ss

/-- String prefix test (the model of the `/^https?:\/\//` scheme check). -/
def leadsWith (p s : String) : Bool := leadsWithChars p.data s.data

/-- ASCII alphabetic, the first character of a scheme. -/
def isSchemeStart (c : Char) : Bool :=
  ('a' ≤ c && c ≤ 'z') || ('A' ≤ c && c ≤ 'Z')

/-- Characters allowed after the first one in a scheme. -/
def isSchemeChar (c : Char) : Bool :=
  isSchemeStart c || ('0' ≤ c && c ≤ '9') || c == '+' || c == '-' || c == '.'

/-- ASCII lowercasing of one character. -/
def lowerChar (c : Char) : Char :=
  if 'A' ≤ c ∧ c ≤ 'Z' then Char.ofNat (c.toNat + 32) else c

/-- Scheme scanning after a valid start character. -/
def schemeAux (acc : Chars) : Chars → Option (Chars × Chars)
  | [] => none
  | c :: cs =>
    if c = ':' then some ((acc.reverse).map lowerChar, cs)
    else if isSchemeChar c then schemeAux (c :: acc) cs
    else none

/-- Split `scheme:rest` if the input begins with a valid scheme and a colon;
the scheme comes back lowercased. -/
def takeScheme : Chars → Option (Chars × Chars)
  | [] => none
  | c :: cs => if isSchemeStart c then schemeAux [c] cs else none

/-- The special schemes requiring a nonempty authority (`file`, whose
states are not modelled, is left out). -/
def isSpecialScheme (s : Chars) : Bool :=
  s == "http".data || s == "https".data || s == "ws".data ||
    s == "wss".data || s == "ftp".data

/-- The throwaway base `http://localhost` used by `encodeUrl` for relative
input. -/
def localhostBase : URLRec := ⟨"http", "localhost", "/", [], ""⟩

/-- The directory part of a path: everything up to and including the last
slash. -/
def dirOf (p : Chars) : Chars :=
  (p.reverse.dropWhile (fun c => c != '/')).reverse

/-- Special-scheme URLs get `/` instead of an empty path. -/
def normPath (p : Chars) : Chars := if p.isEmpty then ['/'] else p

/-- WHATWG relative resolution against base `b` (the query and fragment are
already split off `p`): protocol-relative `//host`, root-relative `/path`,
empty (keep the base path), or a merge with the base path's directory. -/
def parseRelative (p : Chars) (ps : List (String × String)) (frag : Chars)
    (b : URLRec) : Except String URLRec :=
  if leadsWithChars ['/', '/'] p then
    let rest := p.drop 2
    let host := rest.takeWhile (fun c => c != '/')
    let path := rest.dropWhile (fun c => c != '/')
    if host.isEmpty then .error "Invalid URL"
    else .ok ⟨b.scheme, String.mk host, String.mk (normPath path), ps, String.mk frag⟩
  else if leadsWithChars ['/'] p then
    .ok ⟨b.scheme, b.host, String.mk p, ps, String.mk frag⟩
  else if p.isEmpty then
    .ok ⟨b.scheme, b.host, b.pathname, ps, String.mk frag⟩
  else
    .ok ⟨b.scheme, b.host, String.mk (dirOf b.pathname.data ++ p), ps, String.mk frag⟩

/-- WHATWG special-authority parsing: skip every leading slash, read the
authority up to the next slash (it must be nonempty), the rest is the
path. -/
def parseSpecialAuthority (scheme rest : Chars) (ps : List (String × String))
    (frag : Chars) : Except String URLRec :=
  let r := rest.dropWhile (fun c => c == '/')
  let host := r.takeWhile (fun c => c != '/')
  let path := r.dropWhile (fun c => c != '/')
  if host.isEmpty then .error "Invalid URL"
  else .ok ⟨String.mk scheme, String.mk host, String.mk (normPath path), ps, String.mk frag⟩

/-- Dispatch on the scheme: a special scheme equal to the base's scheme and
not followed by `//` resolves relatively; other special schemes take the
authority path; non-special schemes take a `//` authority verbatim or an
opaque path; scheme-less input resolves against the base (required). -/
def parseMain (core : Chars) (ps : List (String × String)) (frag : Chars)
    (base : Option URLRec) : Except String URLRec :=
  match takeScheme core with
  | some (scheme, rest) =>
    if isSpecialScheme scheme then
      match base with
      | some b =>
        if scheme = b.scheme.data ∧ ¬ leadsWithChars ['/', '/'] rest then
          parseRelative rest ps frag b
        else parseSpecialAuthority scheme rest ps frag
      | none => parseSpecialAuthority scheme rest ps frag
    else
      if leadsWithChars ['/', '/'] rest then
        let r2 := rest.drop 2
        let host := r2.takeWhile (fun c => c != '/')
        let path := r2.dropWhile (fun c => c != '/')
        .ok ⟨String.mk scheme, String.mk host, String.mk path, ps, String.mk frag⟩
      else .ok ⟨String.mk scheme, "", String.mk rest, ps, String.mk frag⟩
  | none =>
    match base with
    | none => .error "Invalid URL"
    | some b => parseRelative core ps frag b

/-- The model of `new URL(s, base?)`: split the fragment at the first `#`
(percent-encoding it), the query at the first `?` (parsing it), then parse
scheme, authority and path. -/
def parseChars (s : Chars) (base : Option URLRec) : Except String URLRec :=
  let p1 := splitFirst '#' s
  let frag := fragEncode (p1.2.getD [])
  let p2 := splitFirst '?' p1.1
  let ps := parseQueryChars (p2.2.getD [])
  parseMain p2.1 ps frag base

/-- The model of `new URL(s, base?)` on strings. -/
def parseURL (s : String) (base : Option URLRec) : Except String URLRec :=
  parseChars s.data base

/-- The values a `URLParams` record can hold (`src/types.ts`:
`boolean | null | number | string | undefined`).  Numbers are
decimal-exact: an integer part and fraction digits. -/
inductive Prim where
  | str (s : String)
  | num (int : Int) (frac : String)
  | bool (b : Bool)
  | null
  | undef
deriving Repr, DecidableEq

/-- JavaScript `String(value)` on the modelled values. -/
def primToString : Prim → String
  | .str s => s
  | .num i f => if f.isEmpty then toString i else toString i ++ "." ++ f
  | .bool b => if b then "true" else "false"
  | .null => "null"
  | .undef => "undefined"

/-- `value == null` is true exactly for `null` and `undefined`; otherwise
the value is coerced by `String(value)`. -/
def entryVal : Prim → Option String
  | .null => none
  | .undef => none
  | v => some (primToString v)

/-- `URLSearchParams.delete(k)`: remove every entry with key `k`. -/
def spDelete (k : String) (q : List (String × String)) : List (String × String) :=
  q.filter (fun e => !(e.1 == k))

/-- `URLSearchParams.set(k, v)`: overwrite the first entry with key `k` in
place and drop later duplicates, else append at the end. -/
def spSet (k v : String) : List (String × String) → List (String × String)
  | [] => [(k, v)]
  | e :: rest => if e.1 = k then (k, v) :: spDelete k rest else e :: spSet k v rest

/-- `URLSearchParams.get(k)`: the first value stored under `k`. -/
def spGet (k : String) : List (String × String) → Option String
  | [] => none
  | e :: rest => if e.1 = k then some e.2 else spGet k rest

/-- One iteration of the `Object.entries(params).forEach` loop in
`encodeUrl`: null-ish values delete the key, others are coerced and set. -/
def applyParam (q : List (String × String)) (kv : String × Prim) :
    List (String × String) :=
  match entryVal kv.2 with
  | none => spDelete kv.1 q
  | some s => spSet kv.1 s q

/-- The whole `forEach` loop over the entries in insertion order. -/
def applyParams (q : List (String × String)) (kvs : List (String × Prim)) :
    List (String × String) :=
  kvs.foldl applyParam q

/-- `encodeUrl(url, params)` from `src/string.ts` for a string `url`: test
`/^https?:\/\//`, parse (against `http://localhost` when relative), apply
the parameters, then return `href` or `pathname + search + hash`. -/
def encodeUrl (url : String) (params : List (String × Prim)) :
    Except String String :=
  let isAbsolute := leadsWith "http://" url || leadsWith "https://" url
  match (if isAbsolute then parseURL url none else parseURL url (some localhostBase)) with
  | .error e => .error e
  | .ok u =>
    let u2 : URLRec := { u with params := applyParams u.params params }
    .ok (String.mk (if isAbsolute then absOut u2 else relOut u2))

/-- `encodeUrl(url, params)` for a `URL` instance `url`: the function
assigns `u = url` without copying, so `u.searchParams.delete/set` mutate
the caller's object; the second component is the handle's state after the
call. -/
def encodeUrlOnURL (u : URLRec) (params : List (String × Prim)) :
    String × URLRec :=
  let u2 : URLRec := { u with params := applyParams u.params params }
  (String.mk (absOut u2), u2)

deriving instance DecidableEq for Except

example : encodeUrl "/search"
    [("a", .null), ("limit", .num 200 ""), ("query", .str "foo bar"), ("z", .undef)] =
    .ok "/search?limit=200&query=foo+bar" := by decide
example : encodeUrl "/search?limit=200&foo=bar" [("foo", .null), ("limit", .num 50 "")] =
    .ok "/search?limit=50" := by decide
example : encodeUrl "/page#section1" [("q", .str "test")] =
    .ok "/page?q=test#section1" := by decide
example : encodeUrl "https://google.com/?q=foo" [("q", .str "bar")] =
    .ok "https://google.com/?q=bar" := by decide
example : encodeUrl "/empty" [] = .ok "/empty" := by decide
example : encodeUrl "/page" [("id", .num 123 ""), ("score", .num 98 "6")] =
    .ok "/page?id=123&score=98.6" := by decide
example : encodeUrl "/settings" [("enabled", .bool true), ("visible", .bool false)] =
    .ok "/settings?enabled=true&visible=false" := by decide
example : encodeUrl "/search" [("query", .str "a&b=c?d#e+")] =
    .ok "/search?query=a%26b%3Dc%3Fd%23e%2B" := by decide
example : encodeUrl "ftp://host/path" [] = .ok "/path" := by decide
example : encodeUrl "https:/one-slash" [] = .ok "/" := by decide
example : encodeUrl "ftp://" [] = .error "Invalid URL" := by decide
example : encodeUrl "mailto:a@b" [("q", .num 1 "")] = .ok "a@b?q=1" := by decide
example : encodeUrl "a@b?q=1" [("q", .num 1 "")] = .ok "/a@b?q=1" := by decide

theorem spGet_spSet_self (k v : String) (q : List (String × String)) :
    spGet k (spSet k v q) = some v := by
  induction q with
  | nil => simp [spSet, spGet]
  | cons e rest ih =>
    by_cases h : e.1 = k
    · simp [spSet, h, spGet]
    · simp [spSet, h, spGet, ih]

theorem spDelete_cons_self {k : String} {e : String × String} (h : e.1 = k)
    (q : List (String × String)) : spDelete k (e :: q) = spDelete k q := by
  simp [spDelete, List.filter_cons, h]

theorem spDelete_cons_ne {k : String} {e : String × String} (h : ¬ e.1 = k)
    (q : List (String × String)) : spDelete k (e :: q) = e :: spDelete k q := by
  simp [spDelete, List.filter_cons, h]

theorem spGet_spDelete_self (k : String) (q : List (String × String)) :
    spGet k (spDelete k q) = none := by
  induction q with
  | nil => simp [spDelete, spGet]
  | cons e rest ih =>
    by_cases h : e.1 = k
    · rw [spDelete_cons_self h]
      exact ih
    · rw [spDelete_cons_ne h]
      simpa [spGet, h] using ih

theorem spGet_spDelete_ne {k k' : String} (h : k' ≠ k)
    (q : List (String × String)) : spGet k (spDelete k' q) = spGet k q := by
  induction q with
  | nil => simp [spDelete, spGet]
  | cons e rest ih =>
    by_cases he : e.1 = k'
    · have hek : ¬ e.1 = k := by rw [he]; exact h
      rw [spDelete_cons_self he]
      simpa [spGet, hek] using ih
    · rw [spDelete_cons_ne he]
      by_cases hek : e.1 = k
      · simp [spGet, hek]
      · simpa [spGet, hek] using ih

theorem spGet_spSet_ne {k k' : String} (h : k' ≠ k) (v : String)
    (q : List (String × String)) : spGet k (spSet k' v q) = spGet k q := by
  induction q with
  | nil => simp [spSet, spGet, h]
  | cons e rest ih =>
    by_cases he : e.1 = k'
    · have hek : ¬ e.1 = k := by rw [he]; exact h
      simp [spSet, he, spGet, h, hek, spGet_spDelete_ne h]
    · simp [spSet, he, spGet, ih]

/-- The last value assigned to key `k` by the entry list, `none` when the
key is never assigned, `some none` when the last assignment removes it. -/
def lastWrite (k : String) : List (String × Prim) → Option (Option String)
  | [] => none
  | e :: rest =>
    match lastWrite k rest with
    | some r => some r
    | none => if e.1 = k then some (entryVal e.2) else none

theorem applyParams_cons (q : List (String × String)) (e : String × Prim)
    (rest : List (String × Prim)) :
    applyParams q (e :: rest) = applyParams (applyParam q e) rest := rfl

/-- Last write wins: what `get` returns after the `forEach` loop is the
last non-removed assignment, the base value when the key is untouched, and
nothing when the last assignment removed the key. -/
theorem spGet_applyParams (k : String) (q : List (String × String))
    (kvs : List (String × Prim)) :
    spGet k (applyParams q kvs) =
      (match lastWrite k kvs with
       | some (some v) => some v
       | some none => none
       | none => spGet k q) := by
  induction kvs generalizing q with
  | nil => simp [applyParams, lastWrite]
  | cons e rest ih =>
    rw [applyParams_cons, ih]
    cases hlw : lastWrite k rest with
    | some r => cases r <;> simp [lastWrite, hlw]
    | none =>
      simp only [lastWrite, hlw]
      by_cases he : e.1 = k
      · cases hv : entryVal e.2 with
        | none => simp [he, hv, applyParam, spGet_spDelete_self]
        | some s => simp [he, hv, applyParam, spGet_spSet_self]
      · cases hv : entryVal e.2 with
        | none => simp [he, hv, applyParam, spGet_spDelete_ne he]
        | some s => simp [he, hv, applyParam, spGet_spSet_ne he]

/-- Keys of a parameter collection. -/
def keysOf (q : List (String × String)) : List String := q.map fun e => e.1

/-- Keys of an entry list. -/
def pKeys (kvs : List (String × Prim)) : List String := kvs.map fun e => e.1

theorem lastWrite_not_mem {k : String} {kvs : List (String × Prim)}
    (h : k ∉ pKeys kvs) : lastWrite k kvs = none := by
  induction kvs with
  | nil => rfl
  | cons e rest ih =>
    have he : ¬ e.1 = k := by
      intro hh
      exact h (by simp [pKeys, hh])
    have hr : k ∉ pKeys rest := fun hh => h (by simp [pKeys] at hh ⊢; exact .inr hh)
    simp [lastWrite, ih hr, he]

theorem pKeys_cons (e : String × Prim) (rest : List (String × Prim)) :
    pKeys (e :: rest) = e.1 :: pKeys rest := rfl

theorem keysOf_cons (e : String × String) (rest : List (String × String)) :
    keysOf (e :: rest) = e.1 :: keysOf rest := rfl

theorem lastWrite_nodup {k : String} {v : Prim} {kvs : List (String × Prim)}
    (hnd : (pKeys kvs).Nodup) (hmem : (k, v) ∈ kvs) :
    lastWrite k kvs = some (entryVal v) := by
  induction kvs with
  | nil => simp at hmem
  | cons e rest ih =>
    rw [pKeys_cons] at hnd
    have hnd1 := (List.nodup_cons.mp hnd).1
    have hnd2 := (List.nodup_cons.mp hnd).2
    rcases List.mem_cons.mp hmem with rfl | hmem2
    · simp only [lastWrite, lastWrite_not_mem hnd1]
      simp
    · simp [lastWrite, ih hnd2 hmem2]

theorem spDelete_not_mem {k : String} {q : List (String × String)}
    (h : k ∉ keysOf q) : spDelete k q = q := by
  induction q with
  | nil => rfl
  | cons e rest ih =>
    rw [keysOf_cons] at h
    have he : ¬ e.1 = k := fun hh => h (by simp [hh])
    have hr : k ∉ keysOf rest := fun hh => h (by simp [hh])
    rw [spDelete_cons_ne he, ih hr]

theorem keysOf_spSet_mem {k : String} {q : List (String × String)}
    (hmem : k ∈ keysOf q) (hnd : (keysOf q).Nodup) (v : String) :
    keysOf (spSet k v q) = keysOf q := by
  induction q with
  | nil => simp [keysOf] at hmem
  | cons e rest ih =>
    rw [keysOf_cons] at hnd hmem ⊢
    have hnd1 := (List.nodup_cons.mp hnd).1
    have hnd2 := (List.nodup_cons.mp hnd).2
    by_cases he : e.1 = k
    · have hk : k ∉ keysOf rest := he ▸ hnd1
      rw [show spSet k v (e :: rest) = (k, v) :: spDelete k rest from by simp [spSet, he],
        spDelete_not_mem hk, keysOf_cons]
      simp [he]
    · have hm2 : k ∈ keysOf rest := by
        rcases List.mem_cons.mp hmem with h1 | h1
        · exact absurd h1.symm he
        · exact h1
      rw [show spSet k v (e :: rest) = e :: spSet k v rest from by simp [spSet, he],
        keysOf_cons, ih hm2 hnd2]

theorem keysOf_spSet_not_mem {k : String} {q : List (String × String)}
    (h : k ∉ keysOf q) (v : String) :
    keysOf (spSet k v q) = keysOf q ++ [k] := by
  induction q with
  | nil => simp [spSet, keysOf]
  | cons e rest ih =>
    rw [keysOf_cons] at h
    have he : ¬ e.1 = k := fun hh => h (by simp [hh])
    have hr : k ∉ keysOf rest := fun hh => h (by simp [hh])
    rw [show spSet k v (e :: rest) = e :: spSet k v rest from by simp [spSet, he],
      keysOf_cons, ih hr, keysOf_cons]
    rfl

theorem keysOf_spSet_nodup {k : String} {q : List (String × String)}
    (hnd : (keysOf q).Nodup) (v : String) :
    (keysOf (spSet k v q)).Nodup := by
  by_cases hmem : k ∈ keysOf q
  · rw [keysOf_spSet_mem hmem hnd]
    exact hnd
  · rw [keysOf_spSet_not_mem hmem]
    refine List.Nodup.append hnd (List.nodup_singleton k) ?_
    intro x hx hx2
    simp at hx2
    subst hx2
    exact hmem hx

theorem keysOf_applyParams {kvs : List (String × Prim)} :
    ∀ {q : List (String × String)}, (keysOf q).Nodup → (pKeys kvs).Nodup →
    (∀ e ∈ kvs, entryVal e.2 ≠ none) →
    keysOf (applyParams q kvs) =
      keysOf q ++ (pKeys kvs).filter (fun x => decide (x ∉ keysOf q)) := by
  induction kvs with
  | nil => intro q _ _ _; simp [applyParams, pKeys]
  | cons e rest ih =>
    intro q hq hnd hv
    rw [pKeys_cons] at hnd
    have hnd1 := (List.nodup_cons.mp hnd).1
    have hnd2 := (List.nodup_cons.mp hnd).2
    have hvrest : ∀ f ∈ rest, entryVal f.2 ≠ none :=
      fun f hf => hv f (List.mem_cons_of_mem _ hf)
    cases hve : entryVal e.2 with
    | none => exact absurd hve (hv e (List.mem_cons_self _ _))
    | some s =>
      rw [applyParams_cons]
      have hap : applyParam q e = spSet e.1 s q := by simp [applyParam, hve]
      by_cases hmem : e.1 ∈ keysOf q
      · have hkeys : keysOf (applyParam q e) = keysOf q := by
          rw [hap]; exact keysOf_spSet_mem hmem hq s
        have hq2 : (keysOf (applyParam q e)).Nodup := by rw [hkeys]; exact hq
        rw [ih hq2 hnd2 hvrest, hkeys, pKeys_cons, List.filter_cons]
        simp [hmem]
      · have hkeys : keysOf (applyParam q e) = keysOf q ++ [e.1] := by
          rw [hap]; exact keysOf_spSet_not_mem hmem s
        have hq2 : (keysOf (applyParam q e)).Nodup := by
          rw [hap]; exact keysOf_spSet_nodup hq s
        rw [ih hq2 hnd2 hvrest, hkeys, pKeys_cons, List.filter_cons]
        have hcong : (pKeys rest).filter (fun x => decide (x ∉ keysOf q ++ [e.1])) =
            (pKeys rest).filter (fun x => decide (x ∉ keysOf q)) := by
          apply List.filter_congr
          intro x hx
          have hxe : x ≠ e.1 := fun hh => hnd1 (hh ▸ hx)
          simp [hxe]
        rw [hcong]
        simp [hmem]

/-- The entries stored under key `k`, in order. -/
def entriesFor (k : String) (q : List (String × String)) : List (String × String) :=
  q.filter fun e => e.1 == k

theorem entriesFor_cons_self {k : String} {e : String × String} (h : e.1 = k)
    (q : List (String × String)) : entriesFor k (e :: q) = e :: entriesFor k q := by
  simp [entriesFor, List.filter_cons, h]

theorem entriesFor_cons_ne {k : String} {e : String × String} (h : ¬ e.1 = k)
    (q : List (String × String)) : entriesFor k (e :: q) = entriesFor k q := by
  simp [entriesFor, List.filter_cons, h]

theorem entriesFor_spDelete_self (k : String) (q : List (String × String)) :
    entriesFor k (spDelete k q) = [] := by
  induction q with
  | nil => rfl
  | cons e rest ih =>
    by_cases h : e.1 = k
    · rw [spDelete_cons_self h]; exact ih
    · rw [spDelete_cons_ne h, entriesFor_cons_ne h]; exact ih

theorem entriesFor_spDelete_ne {k k' : String} (h : k' ≠ k)
    (q : List (String × String)) : entriesFor k (spDelete k' q) = entriesFor k q := by
  induction q with
  | nil => rfl
  | cons e rest ih =>
    by_cases he : e.1 = k'
    · have hek : ¬ e.1 = k := by rw [he]; exact h
      rw [spDelete_cons_self he, entriesFor_cons_ne hek]; exact ih
    · by_cases hek : e.1 = k
      · rw [spDelete_cons_ne he, entriesFor_cons_self hek, entriesFor_cons_self hek, ih]
      · rw [spDelete_cons_ne he, entriesFor_cons_ne hek, entriesFor_cons_ne hek]; exact ih

theorem entriesFor_spSet_self (k v : String) (q : List (String × String)) :
    entriesFor k (spSet k v q) = [(k, v)] := by
  induction q with
  | nil => simp [spSet, entriesFor, List.filter_cons]
  | cons e rest ih =>
    by_cases h : e.1 = k
    · rw [show spSet k v (e :: rest) = (k, v) :: spDelete k rest from by simp [spSet, h],
        @entriesFor_cons_self k (k, v) rfl, entriesFor_spDelete_self]
    · rw [show spSet k v (e :: rest) = e :: spSet k v rest from by simp [spSet, h],
        entriesFor_cons_ne h, ih]

theorem entriesFor_spSet_ne {k k' : String} (h : k' ≠ k) (v : String)
    (q : List (String × String)) : entriesFor k (spSet k' v q) = entriesFor k q := by
  induction q with
  | nil => simp [spSet, entriesFor, List.filter_cons, h]
  | cons e rest ih =>
    by_cases he : e.1 = k'
    · have hek : ¬ e.1 = k := by rw [he]; exact h
      rw [show spSet k' v (e :: rest) = (k', v) :: spDelete k' rest from by simp [spSet, he],
        entriesFor_cons_ne (by simpa using h), entriesFor_spDelete_ne h,
        entriesFor_cons_ne hek]
    · by_cases hek : e.1 = k
      · rw [show spSet k' v (e :: rest) = e :: spSet k' v rest from by simp [spSet, he],
          entriesFor_cons_self hek, entriesFor_cons_self hek, ih]
      · rw [show spSet k' v (e :: rest) = e :: spSet k' v rest from by simp [spSet, he],
          entriesFor_cons_ne hek, entriesFor_cons_ne hek]
        exact ih

theorem spDelete_of_entriesFor_nil {k : String} {q : List (String × String)}
    (h : entriesFor k q = []) : spDelete k q = q := by
  induction q with
  | nil => rfl
  | cons e rest ih =>
    by_cases he : e.1 = k
    · rw [entriesFor_cons_self he] at h
      simp at h
    · rw [entriesFor_cons_ne he] at h
      rw [spDelete_cons_ne he, ih h]

theorem spSet_noop {k v : String} {q : List (String × String)}
    (h : entriesFor k q = [(k, v)]) : spSet k v q = q := by
  induction q with
  | nil => simp [entriesFor] at h
  | cons e rest ih =>
    by_cases he : e.1 = k
    · rw [entriesFor_cons_self he] at h
      have h1 : e = (k, v) := by
        have := List.cons.injEq e (entriesFor k rest) (k, v) [] ▸ h
        simp at h
        exact h.1
      have h2 : entriesFor k rest = [] := by
        simp at h
        exact h.2
      rw [show spSet k v (e :: rest) = (k, v) :: spDelete k rest from by simp [spSet, he],
        spDelete_of_entriesFor_nil h2, h1]
    · rw [entriesFor_cons_ne he] at h
      rw [show spSet k v (e :: rest) = e :: spSet k v rest from by simp [spSet, he], ih h]

theorem entriesFor_applyParam_ne {k : String} {e : String × Prim} (h : e.1 ≠ k)
    (q : List (String × String)) : entriesFor k (applyParam q e) = entriesFor k q := by
  unfold applyParam
  cases hv : entryVal e.2 with
  | none => exact entriesFor_spDelete_ne h q
  | some s => exact entriesFor_spSet_ne h s q

theorem entriesFor_applyParams_not_mem {k : String} {kvs : List (String × Prim)}
    (h : k ∉ pKeys kvs) (q : List (String × String)) :
    entriesFor k (applyParams q kvs) = entriesFor k q := by
  induction kvs generalizing q with
  | nil => rfl
  | cons e rest ih =>
    rw [pKeys_cons] at h
    have he : e.1 ≠ k := fun hh => h (by simp [hh])
    have hr : k ∉ pKeys rest := fun hh => h (by simp [hh])
    rw [applyParams_cons, ih hr, entriesFor_applyParam_ne he]

/-- Re-running the same `forEach` loop over a parameter object with
distinct keys is a no-op: each delete hits an absent key and each set
rewrites the single entry it created. -/
theorem applyParams_idem {kvs : List (String × Prim)}
    (hnd : (pKeys kvs).Nodup) (q : List (String × String)) :
    applyParams (applyParams q kvs) kvs = applyParams q kvs := by
  induction kvs generalizing q with
  | nil => rfl
  | cons e rest ih =>
    rw [pKeys_cons] at hnd
    have hnd1 := (List.nodup_cons.mp hnd).1
    have hnd2 := (List.nodup_cons.mp hnd).2
    rw [applyParams_cons, applyParams_cons]
    have hA : applyParam (applyParams (applyParam q e) rest) e =
        applyParams (applyParam q e) rest := by
      cases hv : entryVal e.2 with
      | none =>
        show (match entryVal e.2 with
          | none => spDelete e.1 (applyParams (applyParam q e) rest)
          | some s => spSet e.1 s (applyParams (applyParam q e) rest)) = _
        rw [hv]
        apply spDelete_of_entriesFor_nil
        rw [entriesFor_applyParams_not_mem hnd1]
        show entriesFor e.1 (match entryVal e.2 with
          | none => spDelete e.1 q
          | some s => spSet e.1 s q) = []
        rw [hv]
        exact entriesFor_spDelete_self e.1 q
      | some s =>
        show (match entryVal e.2 with
          | none => spDelete e.1 (applyParams (applyParam q e) rest)
          | some t => spSet e.1 t (applyParams (applyParam q e) rest)) = _
        rw [hv]
        apply spSet_noop
        rw [entriesFor_applyParams_not_mem hnd1]
        show entriesFor e.1 (match entryVal e.2 with
          | none => spDelete e.1 q
          | some t => spSet e.1 t q) = [(e.1, s)]
        rw [hv]
        exact entriesFor_spSet_self e.1 s q
    rw [hA]
    exact ih hnd2 (applyParam q e)

theorem splitFirst_cons_ne {c x : Char} (h : x ≠ c) (xs : Chars) :
    splitFirst c (x :: xs) = (x :: (splitFirst c xs).1, (splitFirst c xs).2) := by
  simp [splitFirst, h]

theorem splitFirst_append_left {c : Char} {a : Chars} (h : c ∉ a) (b : Chars) :
    splitFirst c (a ++ b) = (a ++ (splitFirst c b).1, (splitFirst c b).2) := by
  induction a with
  | nil => simp
  | cons x xs ih =>
    have hx : x ≠ c := fun he => h (by simp [he])
    have hxs : c ∉ xs := fun he => h (by simp [he])
    rw [List.cons_append, splitFirst_cons_ne hx, ih hxs]
    simp

theorem splitFirst_fst_not_mem (c : Char) (s : Chars) : c ∉ (splitFirst c s).1 := by
  induction s with
  | nil => simp [splitFirst]
  | cons x xs ih =>
    by_cases hx : x = c
    · simp [splitFirst, hx]
    · rw [splitFirst_cons_ne hx]
      simp only [List.mem_cons]
      rintro (rfl | hmem)
      · exact hx rfl
      · exact ih hmem

theorem splitFirst_fst_front (c : Char) (s : Chars) :
    ∃ t, s = (splitFirst c s).1 ++ t := by
  induction s with
  | nil => exact ⟨[], rfl⟩
  | cons x xs ih =>
    by_cases hx : x = c
    · exact ⟨x :: xs, by simp [splitFirst, hx]⟩
    · rcases ih with ⟨t, ht⟩
      refine ⟨t, ?_⟩
      rw [splitFirst_cons_ne hx, List.cons_append, ← ht]

theorem mem_of_front {t l : Chars} {x : Char} (h : ∃ w, l = t ++ w) (hx : x ∈ t) :
    x ∈ l := by
  rcases h with ⟨w, rfl⟩
  exact List.mem_append.mpr (.inl hx)

theorem head_of_front {t l : Chars} {x : Char} {xs : Chars} (h : ∃ w, l = t ++ w)
    (ht : t = x :: xs) : ∃ ys, l = x :: ys := by
  rcases h with ⟨w, rfl⟩
  subst ht
  exact ⟨xs ++ w, rfl⟩

theorem mem_joinAmpAux {x : Char} {a : Chars} {l : List Chars}
    (h : x ∈ joinAmpAux a l) : x = '&' ∨ x ∈ a ∨ ∃ p ∈ l, x ∈ p := by
  induction l generalizing a with
  | nil => exact .inr (.inl h)
  | cons y ys ih =>
    rcases (by simpa [joinAmpAux] using h :
        x ∈ a ∨ x = '&' ∨ x ∈ joinAmpAux y ys) with h1 | h1 | h2
    · exact .inr (.inl h1)
    · exact .inl h1
    · rcases ih h2 with h3 | h3 | ⟨p, hp, hxp⟩
      · exact .inl h3
      · exact .inr (.inr ⟨y, by simp, h3⟩)
      · exact .inr (.inr ⟨p, by simp [hp], hxp⟩)

theorem mem_joinAmp {x : Char} {l : List Chars} (h : x ∈ joinAmp l) :
    x = '&' ∨ ∃ p ∈ l, x ∈ p := by
  cases l with
  | nil => simp [joinAmp] at h
  | cons a as =>
    rcases mem_joinAmpAux (by simpa [joinAmp] using h) with h1 | h1 | h1
    · exact .inl h1
    · exact .inr ⟨a, by simp, h1⟩
    · rcases h1 with ⟨p, hp, hxp⟩
      exact .inr ⟨p, by simp [hp], hxp⟩

theorem hash_not_mem_renderSearch {ps : List (String × String)} :
    '#' ∉ renderSearch ps := by
  unfold renderSearch
  split_ifs with h
  · simp
  · intro hmem
    rcases List.mem_cons.mp hmem with h1 | h1
    · simp at h1
    · rcases mem_joinAmp h1 with h2 | ⟨p, hp, hxp⟩
      · simp at h2
      · rcases List.mem_map.mp hp with ⟨kv, _, rfl⟩
        exact (mem_serializePair hxp).2.1 rfl

theorem q_not_mem_joinAmp_pairs {ps : List (String × String)}
    (h : '?' ∈ joinAmp (ps.map serializePair)) : False := by
  rcases mem_joinAmp h with h2 | ⟨p, hp, hxp⟩
  · simp at h2
  · rcases List.mem_map.mp hp with ⟨kv, _, rfl⟩
    exact (mem_serializePair hxp).2.2 rfl

theorem fragEncode_append (a b : Chars) :
    fragEncode (a ++ b) = fragEncode a ++ fragEncode b := by
  induction a with
  | nil => rfl
  | cons c cs ih => simp [fragEncode, List.foldr_cons] at ih ⊢; rw [ih]

theorem fragEncode_cons (c : Char) (s : Chars) :
    fragEncode (c :: s) = fragEncodeChar c ++ fragEncode s := rfl

theorem mem_percentEncByte {b x : Nat}
    (h : x ∈ percentEncByte b) : x = 37 ∨ (48 ≤ x ∧ x ≤ 57) ∨ (65 ≤ x ∧ x ≤ 70) := by
  unfold percentEncByte at h
  have r1 := hexDigitCode_range (d := b / 16 % 16) (by omega)
  have r2 := hexDigitCode_range (d := b % 16) (by omega)
  simp at h
  omega

theorem mem_pctFold {x : Nat} {bs : List Nat}
    (h : x ∈ bs.foldr (fun b acc => percentEncByte b ++ acc) []) :
    ∃ b ∈ bs, x ∈ percentEncByte b := by
  induction bs with
  | nil => simp at h
  | cons b rest ih =>
    rcases List.mem_append.mp (by simpa using h) with h1 | h1
    · exact ⟨b, by simp, h1⟩
    · rcases ih h1 with ⟨b2, hb2, hx⟩
      exact ⟨b2, List.mem_cons_of_mem _ hb2, hx⟩

theorem mem_fragEncodeChar_not_set {c x : Char} (h : x ∈ fragEncodeChar c) :
    inFragSet x = false := by
  unfold fragEncodeChar at h
  split_ifs at h with hset
  · unfold bytesToChars at h
    rcases List.mem_map.mp h with ⟨b, hb, rfl⟩
    rcases mem_pctFold hb with ⟨b2, _, hx⟩
    have hcode := mem_percentEncByte hx
    have ht : (Char.ofNat b).toNat = b := charToNat_ofNat (by omega)
    simp [inFragSet, ht]
    omega
  · simp at h
    subst h
    simpa using hset

theorem fragEncodeChar_not_set {c : Char} (h : inFragSet c = false) :
    fragEncodeChar c = [c] := by
  simp [fragEncodeChar, h]

theorem fragEncode_id_of {s : Chars} (h : ∀ x ∈ s, inFragSet x = false) :
    fragEncode s = s := by
  induction s with
  | nil => rfl
  | cons c cs ih =>
    rw [fragEncode_cons, fragEncodeChar_not_set (h c (by simp)),
      ih (fun x hx => h x (List.mem_cons_of_mem _ hx))]
    rfl

theorem fragEncode_idem (s : Chars) : fragEncode (fragEncode s) = fragEncode s := by
  induction s with
  | nil => rfl
  | cons c cs ih =>
    rw [fragEncode_cons, fragEncode_append, ih,
      fragEncode_id_of (fun x hx => mem_fragEncodeChar_not_set hx)]

theorem takeWhile_append_all {p : Char → Bool} {a : Chars}
    (h : ∀ x ∈ a, p x = true) (b : Chars) :
    (a ++ b).takeWhile p = a ++ b.takeWhile p := by
  induction a with
  | nil => rfl
  | cons x xs ih =>
    rw [List.cons_append, List.takeWhile_cons, h x (by simp),
      ih (fun y hy => h y (List.mem_cons_of_mem _ hy))]
    rfl

theorem dropWhile_append_all {p : Char → Bool} {a : Chars}
    (h : ∀ x ∈ a, p x = true) (b : Chars) :
    (a ++ b).dropWhile p = b.dropWhile p := by
  induction a with
  | nil => rfl
  | cons x xs ih =>
    rw [List.cons_append, List.dropWhile_cons, h x (by simp),
      ih (fun y hy => h y (List.mem_cons_of_mem _ hy))]
    simp

theorem takeWhile_cons_neg {p : Char → Bool} {x : Char} (h : p x = false)
    (l : Chars) : (x :: l).takeWhile p = [] := by
  simp [List.takeWhile_cons, h]

theorem dropWhile_cons_neg {p : Char → Bool} {x : Char} (h : p x = false)
    (l : Chars) : (x :: l).dropWhile p = x :: l := by
  simp [List.dropWhile_cons, h]

theorem mem_of_mem_takeWhile {p : Char → Bool} {l : Chars} {x : Char}
    (h : x ∈ l.takeWhile p) : x ∈ l := by
  have := List.takeWhile_append_dropWhile (p := p) (l := l)
  rw [← this]
  exact List.mem_append.mpr (.inl h)

theorem mem_of_mem_dropWhile {p : Char → Bool} {l : Chars} {x : Char}
    (h : x ∈ l.dropWhile p) : x ∈ l := by
  have := List.takeWhile_append_dropWhile (p := p) (l := l)
  rw [← this]
  exact List.mem_append.mpr (.inr h)

theorem takeWhile_mem_pred {p : Char → Bool} {l : Chars} {x : Char}
    (h : x ∈ l.takeWhile p) : p x = true := by
  induction l with
  | nil => simp at h
  | cons y ys ih =>
    rw [List.takeWhile_cons] at h
    by_cases hy : p y
    · rw [if_pos hy] at h
      rcases List.mem_cons.mp h with rfl | h2
      · exact hy
      · exact ih h2
    · rw [if_neg hy] at h
      simp at h

theorem dropWhile_head_pred {p : Char → Bool} {l : Chars} {x : Char} {xs : Chars}
    (h : l.dropWhile p = x :: xs) : p x = false := by
  induction l with
  | nil => simp at h
  | cons y ys ih =>
    rw [List.dropWhile_cons] at h
    by_cases hy : p y
    · rw [if_pos hy] at h
      exact ih h
    · rw [if_neg hy] at h
      cases h
      simpa using hy

/-- The head, if any, is not a slash. -/
def headNotSlash : Chars → Prop
  | [] => True
  | c :: _ => c ≠ '/'

/-- Invariants of a URL record produced by parsing a root-relative
(`/...` but not `//...`) base against `http://localhost`. -/
structure GoodRel (u : URLRec) : Prop where
  scheme_eq : u.scheme = "http"
  host_eq : u.host = "localhost"
  path_shape : ∃ r, u.pathname.data = '/' :: r ∧ headNotSlash r
  no_hash : '#' ∉ u.pathname.data
  no_q : '?' ∉ u.pathname.data
  frag_enc : fragEncode u.frag.data = u.frag.data

theorem parseChars_eq (s : Chars) (base : Option URLRec) :
    parseChars s base =
      parseMain (splitFirst '?' (splitFirst '#' s).1).1
        (parseQueryChars ((splitFirst '?' (splitFirst '#' s).1).2.getD []))
        (fragEncode ((splitFirst '#' s).2.getD [])) base := rfl

theorem takeScheme_slash (r : Chars) : takeScheme ('/' :: r) = none := rfl

theorem parseChars_relOut {u : URLRec} (hg : GoodRel u) :
    parseChars (relOut u) (some localhostBase) = .ok u := by
  obtain ⟨hsch, hhost, ⟨r, hpath, hns⟩, hnh, hnq, hfr⟩ := hg
  have hnhPS : '#' ∉ u.pathname.data ++ renderSearch u.params := by
    intro hm
    rcases List.mem_append.mp hm with h | h
    · exact hnh h
    · exact hash_not_mem_renderSearch h
  have hsplit1 : splitFirst '#' (relOut u) =
      (u.pathname.data ++ renderSearch u.params,
        if u.frag.data.isEmpty then none else some u.frag.data) := by
    unfold relOut renderHash
    by_cases hf : u.frag.data.isEmpty
    · rw [if_pos hf, if_pos hf, List.append_nil]
      exact splitFirst_not_mem hnhPS
    · rw [if_neg hf, if_neg hf]
      exact splitFirst_append hnhPS _
  have hsplit2 : splitFirst '?' (u.pathname.data ++ renderSearch u.params) =
      (u.pathname.data,
        if u.params.isEmpty then none
        else some (joinAmp (u.params.map serializePair))) := by
    unfold renderSearch
    by_cases hp : u.params.isEmpty
    · rw [if_pos hp, if_pos hp, List.append_nil]
      exact splitFirst_not_mem hnq
    · rw [if_neg hp, if_neg hp]
      exact splitFirst_append hnq _
  rw [parseChars_eq, hsplit1]
  simp only [hsplit2]
  have hps : parseQueryChars
      ((if u.params.isEmpty then none
        else some (joinAmp (u.params.map serializePair)) : Option Chars).getD []) =
      u.params := by
    by_cases hp : u.params.isEmpty
    · rw [if_pos hp]
      have : u.params = [] := by simpa [List.isEmpty_iff] using hp
      rw [this]
      rfl
    · rw [if_neg hp]
      exact parseQuery_round u.params
  have hfrag2 : fragEncode
      ((if u.frag.data.isEmpty then none else some u.frag.data : Option Chars).getD []) =
      u.frag.data := by
    by_cases hf : u.frag.data.isEmpty
    · rw [if_pos hf]
      have : u.frag.data = [] := by simpa [List.isEmpty_iff] using hf
      rw [this]
      rfl
    · rw [if_neg hf]
      exact hfr
  rw [hps, hfrag2, hpath]
  show parseMain ('/' :: r) u.params u.frag.data (some localhostBase) = Except.ok u
  rw [parseMain, takeScheme_slash]
  show parseRelative ('/' :: r) u.params u.frag.data localhostBase = Except.ok u
  have hlw2 : leadsWithChars ['/', '/'] ('/' :: r) = false := by
    cases r with
    | nil => rfl
    | cons hd tl =>
      have hne : hd ≠ '/' := hns
      have hb : ('/' == hd) = false := beq_eq_false_iff_ne.mpr (fun hh => hne hh.symm)
      simp [leadsWithChars, hb]
  have hlw1 : leadsWithChars ['/'] ('/' :: r) = true := rfl
  rw [parseRelative, hlw2]
  simp only [Bool.false_eq_true, if_false, hlw1, if_true]
  rw [← hpath]
  show Except.ok ⟨localhostBase.scheme, localhostBase.host,
    String.mk u.pathname.data, u.params, String.mk u.frag.data⟩ = Except.ok u
  rw [strMk_data, strMk_data]
  show Except.ok ⟨"http", "localhost", u.pathname, u.params, u.frag⟩ = Except.ok u
  rw [← hsch, ← hhost]

/-- Invariants of a URL record produced by parsing an `http(s)://` base. -/
structure GoodAbs (u : URLRec) : Prop where
  scheme_eq : u.scheme = "http" ∨ u.scheme = "https"
  host_ne : u.host.data ≠ []
  host_ok : ∀ x ∈ u.host.data, ¬ x = '/' ∧ ¬ x = '#' ∧ ¬ x = '?'
  path_shape : ∃ r, u.pathname.data = '/' :: r
  no_hash : '#' ∉ u.pathname.data
  no_q : '?' ∉ u.pathname.data
  frag_enc : fragEncode u.frag.data = u.frag.data

theorem takeScheme_http_app (r : Chars) :
    takeScheme ("http".data ++ ':' :: r) = some ("http".data, r) := rfl

theorem takeScheme_https_app (r : Chars) :
    takeScheme ("https".data ++ ':' :: r) = some ("https".data, r) := rfl

theorem parseSpecialAuthority_spec {host path : Chars} (hne : host ≠ [])
    (hok : ∀ x ∈ host, ¬ x = '/') {r : Chars} (hr : path = '/' :: r)
    (scheme : Chars) (ps : List (String × String)) (frag : Chars) :
    parseSpecialAuthority scheme ('/' :: '/' :: (host ++ path)) ps frag =
      .ok ⟨String.mk scheme, String.mk host, String.mk path, ps, String.mk frag⟩ := by
  obtain ⟨hh, ht, rfl⟩ : ∃ hh ht, host = hh :: ht := by
    cases host with
    | nil => exact absurd rfl hne
    | cons a b => exact ⟨a, b, rfl⟩
  have hh1 : (hh == '/') = false :=
    beq_eq_false_iff_ne.mpr (hok hh (by simp))
  have hall : ∀ x ∈ hh :: ht, ((x != '/') = true) := by
    intro x hx
    simpa using beq_eq_false_iff_ne.mpr (hok x hx)
  have hdrop : List.dropWhile (fun c => c == '/') ('/' :: '/' :: ((hh :: ht) ++ path)) =
      (hh :: ht) ++ path := by
    rw [List.dropWhile_cons, List.dropWhile_cons]
    simp only [show (('/' : Char) == '/') = true from rfl, if_true]
    rw [List.cons_append, @dropWhile_cons_neg (fun c => c == '/') hh hh1 (ht ++ path),
      ← List.cons_append]
  have htake : List.takeWhile (fun c => c != '/') ((hh :: ht) ++ path) = hh :: ht := by
    rw [takeWhile_append_all hall, hr,
      @takeWhile_cons_neg (fun c => c != '/') '/' rfl r, List.append_nil]
  have hdrop2 : List.dropWhile (fun c => c != '/') ((hh :: ht) ++ path) = path := by
    rw [dropWhile_append_all hall, hr,
      @dropWhile_cons_neg (fun c => c != '/') '/' rfl r]
  unfold parseSpecialAuthority
  dsimp only
  rw [hdrop, htake, hdrop2]
  rw [if_neg (by simp)]
  have hnp : normPath path = path := by
    rw [hr]
    rfl
  rw [hnp]

theorem parseChars_absOut {u : URLRec} (hg : GoodAbs u) :
    parseChars (absOut u) none = .ok u := by
  obtain ⟨hsch, hne, hok, ⟨r, hpath⟩, hnh, hnq, hfr⟩ := hg
  have hnhY : '#' ∉ u.scheme.data ++ (':' :: '/' :: '/' :: u.host.data) ++
      u.pathname.data ++ renderSearch u.params := by
    intro hm
    rcases hsch with h | h <;> rw [h] at hm <;>
      rcases List.mem_append.mp hm with hm1 | hm1
    · rcases List.mem_append.mp hm1 with hm2 | hm2
      · rcases List.mem_append.mp hm2 with hm3 | hm3
        · simp at hm3
        · rcases List.mem_cons.mp hm3 with h4 | h4
          · simp at h4
          · rcases List.mem_cons.mp h4 with h5 | h5
            · simp at h5
            · rcases List.mem_cons.mp h5 with h6 | h6
              · simp at h6
              · exact (hok _ h6).2.1 rfl
      · exact hnh hm2
    · exact hash_not_mem_renderSearch hm1
    · rcases List.mem_append.mp hm1 with hm2 | hm2
      · rcases List.mem_append.mp hm2 with hm3 | hm3
        · simp at hm3
        · rcases List.mem_cons.mp hm3 with h4 | h4
          · simp at h4
          · rcases List.mem_cons.mp h4 with h5 | h5
            · simp at h5
            · rcases List.mem_cons.mp h5 with h6 | h6
              · simp at h6
              · exact (hok _ h6).2.1 rfl
      · exact hnh hm2
    · exact hash_not_mem_renderSearch hm1
  have hnqY : '?' ∉ u.scheme.data ++ (':' :: '/' :: '/' :: u.host.data) ++
      u.pathname.data := by
    intro hm
    rcases hsch with h | h <;> rw [h] at hm <;>
      rcases List.mem_append.mp hm with hm2 | hm2
    · rcases List.mem_append.mp hm2 with hm3 | hm3
      · simp at hm3
      · rcases List.mem_cons.mp hm3 with h4 | h4
        · simp at h4
        · rcases List.mem_cons.mp h4 with h5 | h5
          · simp at h5
          · rcases List.mem_cons.mp h5 with h6 | h6
            · simp at h6
            · exact (hok _ h6).2.2 rfl
    · exact hnq hm2
    · rcases List.mem_append.mp hm2 with hm3 | hm3
      · simp at hm3
      · rcases List.mem_cons.mp hm3 with h4 | h4
        · simp at h4
        · rcases List.mem_cons.mp h4 with h5 | h5
          · simp at h5
          · rcases List.mem_cons.mp h5 with h6 | h6
            · simp at h6
            · exact (hok _ h6).2.2 rfl
    · exact hnq hm2
  have hsplit1 : splitFirst '#' (absOut u) =
      (u.scheme.data ++ (':' :: '/' :: '/' :: u.host.data) ++ u.pathname.data ++
        renderSearch u.params,
       if u.frag.data.isEmpty then none else some u.frag.data) := by
    unfold absOut renderHash
    by_cases hf : u.frag.data.isEmpty
    · rw [if_pos hf, if_pos hf, List.append_nil]
      exact splitFirst_not_mem hnhY
    · rw [if_neg hf, if_neg hf]
      exact splitFirst_append hnhY _
  have hsplit2 : splitFirst '?'
      (u.scheme.data ++ (':' :: '/' :: '/' :: u.host.data) ++ u.pathname.data ++
        renderSearch u.params) =
      (u.scheme.data ++ (':' :: '/' :: '/' :: u.host.data) ++ u.pathname.data,
       if u.params.isEmpty then none
       else some (joinAmp (u.params.map serializePair))) := by
    unfold renderSearch
    by_cases hp : u.params.isEmpty
    · rw [if_pos hp, if_pos hp, List.append_nil]
      exact splitFirst_not_mem hnqY
    · rw [if_neg hp, if_neg hp]
      exact splitFirst_append hnqY _
  rw [parseChars_eq, hsplit1]
  simp only [hsplit2]
  have hps : parseQueryChars
      ((if u.params.isEmpty then none
        else some (joinAmp (u.params.map serializePair)) : Option Chars).getD []) =
      u.params := by
    by_cases hp : u.params.isEmpty
    · rw [if_pos hp]
      have : u.params = [] := by simpa [List.isEmpty_iff] using hp
      rw [this]
      rfl
    · rw [if_neg hp]
      exact parseQuery_round u.params
  have hfrag2 : fragEncode
      ((if u.frag.data.isEmpty then none else some u.frag.data : Option Chars).getD []) =
      u.frag.data := by
    by_cases hf : u.frag.data.isEmpty
    · rw [if_pos hf]
      have : u.frag.data = [] := by simpa [List.isEmpty_iff] using hf
      rw [this]
      rfl
    · rw [if_neg hf]
      exact hfr
  rw [hps, hfrag2]
  have hok2 : ∀ x ∈ u.host.data, ¬ x = '/' := fun x hx => (hok x hx).1
  rcases hsch with hs | hs
  · rw [hs]
    have hshape : "http".data ++ (':' :: '/' :: '/' :: u.host.data) ++ u.pathname.data =
        "http".data ++ ':' :: ('/' :: '/' :: (u.host.data ++ u.pathname.data)) := by
      simp
    rw [hshape]
    show parseMain _ _ _ _ = _
    rw [parseMain, takeScheme_http_app]
    show (if isSpecialScheme "http".data then
        parseSpecialAuthority "http".data ('/' :: '/' :: (u.host.data ++ u.pathname.data))
          u.params u.frag.data
      else _) = _
    rw [if_pos (by rfl)]
    rw [parseSpecialAuthority_spec hne hok2 hpath]
    rw [strMk_data, strMk_data]
    show Except.ok ⟨"http", u.host, u.pathname, u.params, u.frag⟩ = Except.ok u
    rw [← hs]
  · rw [hs]
    have hshape : "https".data ++ (':' :: '/' :: '/' :: u.host.data) ++ u.pathname.data =
        "https".data ++ ':' :: ('/' :: '/' :: (u.host.data ++ u.pathname.data)) := by
      simp
    rw [hshape]
    show parseMain _ _ _ _ = _
    rw [parseMain, takeScheme_https_app]
    show (if isSpecialScheme "https".data then
        parseSpecialAuthority "https".data ('/' :: '/' :: (u.host.data ++ u.pathname.data))
          u.params u.frag.data
      else _) = _
    rw [if_pos (by rfl)]
    rw [parseSpecialAuthority_spec hne hok2 hpath]
    rw [strMk_data, strMk_data]
    show Except.ok ⟨"https", u.host, u.pathname, u.params, u.frag⟩ = Except.ok u
    rw [← hs]

theorem leadsWithChars_ex {p s : Chars} (h : leadsWithChars p s = true) :
    ∃ t, s = p ++ t := by
  induction p generalizing s with
  | nil => exact ⟨s, rfl⟩
  | cons c cs ih =>
    cases s with
    | nil => simp [leadsWithChars] at h
    | cons d ds =>
      have h2 := h
      simp only [leadsWithChars, Bool.and_eq_true, beq_iff_eq] at h2
      rcases h2 with ⟨rfl, h3⟩
      rcases ih h3 with ⟨t, rfl⟩
      exact ⟨t, rfl⟩

theorem parse_rel_good {s : Chars} (h1 : leadsWithChars ['/'] s = true)
    (h2 : leadsWithChars ['/', '/'] s = false) {u : URLRec}
    (hp : parseChars s (some localhostBase) = .ok u) : GoodRel u := by
  rcases leadsWithChars_ex h1 with ⟨r, rfl⟩
  have hshape : ['/'] ++ r = '/' :: r := rfl
  rw [hshape] at h2 hp
  have hns : headNotSlash r := by
    cases r with
    | nil => trivial
    | cons d ds =>
      intro hd
      subst hd
      simp [leadsWithChars] at h2
  rw [parseChars_eq] at hp
  rw [splitFirst_cons_ne (show ('/' : Char) ≠ '#' from by decide)] at hp
  rw [splitFirst_cons_ne (show ('/' : Char) ≠ '?' from by decide)] at hp
  dsimp only at hp
  set a1 := (splitFirst '#' r).1 with ha1
  set a2 := (splitFirst '?' a1).1 with ha2
  rcases splitFirst_fst_front '#' r with ⟨t1, ht1⟩
  rcases splitFirst_fst_front '?' a1 with ⟨t2, ht2⟩
  have hns2 : headNotSlash a2 := by
    cases hc : a2 with
    | nil => trivial
    | cons c2 cz =>
      have hpre1 : ∃ ys, a1 = c2 :: ys := head_of_front ⟨t2, ht2⟩ hc
      rcases hpre1 with ⟨ys, hys⟩
      have hpre2 : ∃ zs, r = c2 :: zs := head_of_front ⟨t1, ht1⟩ hys
      rcases hpre2 with ⟨zs, hzs⟩
      rw [hzs] at hns
      exact hns
  have hmain : parseMain ('/' :: a2) (parseQueryChars ((splitFirst '?' a1).2.getD []))
      (fragEncode ((splitFirst '#' r).2.getD [])) (some localhostBase) =
      parseRelative ('/' :: a2) (parseQueryChars ((splitFirst '?' a1).2.getD []))
        (fragEncode ((splitFirst '#' r).2.getD [])) localhostBase := by
    rw [parseMain, takeScheme_slash]
  rw [hmain] at hp
  have hlw2 : leadsWithChars ['/', '/'] ('/' :: a2) = false := by
    cases hc : a2 with
    | nil => rfl
    | cons hd tl =>
      have hne : hd ≠ '/' := by rw [hc] at hns2; exact hns2
      have hb : ('/' == hd) = false := beq_eq_false_iff_ne.mpr (fun hh => hne hh.symm)
      simp [leadsWithChars, hb]
  rw [parseRelative, hlw2] at hp
  simp only [Bool.false_eq_true, if_false] at hp
  rw [if_pos (show leadsWithChars ['/'] ('/' :: a2) = true from rfl)] at hp
  have hu := Except.ok.inj hp
  subst hu
  refine ⟨rfl, rfl, ⟨a2, rfl, hns2⟩, ?_, ?_, ?_⟩
  · intro hm
    rcases List.mem_cons.mp hm with hm1 | hm1
    · simp at hm1
    · exact absurd (mem_of_front ⟨t2, ht2⟩ hm1)
        (ha1 ▸ splitFirst_fst_not_mem '#' r)
  · intro hm
    rcases List.mem_cons.mp hm with hm1 | hm1
    · simp at hm1
    · exact absurd hm1 (ha2 ▸ splitFirst_fst_not_mem '?' a1)
  · show fragEncode (fragEncode _) = fragEncode _
    exact fragEncode_idem _

theorem parse_abs_good_http {s : Chars} {u : URLRec}
    (h1 : leadsWithChars "http://".data s = true ∨
      leadsWithChars "https://".data s = true)
    (hp : parseChars s none = .ok u) : GoodAbs u := by
  have hsplit : ∃ pre r, s = pre ++ r ∧ ('#' ∉ pre) ∧ ('?' ∉ pre) ∧
      (∃ sch, (pre = sch ++ [':', '/', '/'] ∧
        ((sch = "http".data ∧ u.scheme = u.scheme) ∨ sch = "https".data))) := by
    rcases h1 with h | h
    · rcases leadsWithChars_ex h with ⟨r, rfl⟩
      exact ⟨"http://".data, r, rfl, by decide, by decide,
        "http".data, rfl, .inl ⟨rfl, rfl⟩⟩
    · rcases leadsWithChars_ex h with ⟨r, rfl⟩
      exact ⟨"https://".data, r, rfl, by decide, by decide,
        "https".data, rfl, .inr rfl⟩
  rcases hsplit with ⟨pre, r, rfl, hpre1, hpre2, sch, hpre, hsch⟩
  subst hpre
  rw [parseChars_eq] at hp
  rw [splitFirst_append_left (by
    intro hm
    exact hpre1 hm) r] at hp
  dsimp only at hp
  rw [show (sch ++ [':', '/', '/']) ++ (splitFirst '#' r).1 =
      sch ++ [':', '/', '/'] ++ (splitFirst '#' r).1 from rfl] at hp
  rw [splitFirst_append_left (by
    intro hm
    exact hpre2 hm) (splitFirst '#' r).1] at hp
  dsimp only at hp
  set a1 := (splitFirst '#' r).1 with ha1
  set a2 := (splitFirst '?' a1).1 with ha2
  rcases splitFirst_fst_front '#' r with ⟨t1, ht1⟩
  rcases splitFirst_fst_front '?' a1 with ⟨t2, ht2⟩
  have hnh1 : '#' ∉ a1 := ha1 ▸ splitFirst_fst_not_mem '#' r
  have hnq2 : '?' ∉ a2 := ha2 ▸ splitFirst_fst_not_mem '?' a1
  have hnh2 : '#' ∉ a2 := fun hm => hnh1 (mem_of_front ⟨t2, ht2⟩ hm)
  have hcore : sch ++ [':', '/', '/'] ++ a2 = sch ++ ':' :: ('/' :: '/' :: a2) := by
    simp
  rw [hcore] at hp
  have hscheme : takeScheme (sch ++ ':' :: ('/' :: '/' :: a2)) =
      some (sch, '/' :: '/' :: a2) := by
    rcases hsch with ⟨hs, _⟩ | hs <;> rw [hs]
    · exact takeScheme_http_app _
    · exact takeScheme_https_app _
  rw [parseMain, hscheme] at hp
  dsimp only at hp
  have hspec : isSpecialScheme sch = true := by
    rcases hsch with ⟨hs, _⟩ | hs <;> rw [hs] <;> rfl
  rw [if_pos hspec] at hp
  unfold parseSpecialAuthority at hp
  dsimp only at hp
  rw [show List.dropWhile (fun c => c == '/') ('/' :: '/' :: a2) =
      List.dropWhile (fun c => c == '/') a2 from by
    rw [List.dropWhile_cons, List.dropWhile_cons]
    simp only [show (('/' : Char) == '/') = true from rfl, if_true]] at hp
  set r0 := List.dropWhile (fun c => c == '/') a2 with hr0
  set host := List.takeWhile (fun c => c != '/') r0 with hhost
  set path := List.dropWhile (fun c => c != '/') r0 with hpath
  by_cases hh : host.isEmpty
  · rw [if_pos hh] at hp
    simp at hp
  · rw [if_neg hh] at hp
    have hu := Except.ok.inj hp
    subst hu
    have hmem_a2 : ∀ x, x ∈ host → x ∈ a2 := fun x hx =>
      mem_of_mem_dropWhile (hr0 ▸ mem_of_mem_takeWhile (hhost ▸ hx))
    have hmem_path_a2 : ∀ x, x ∈ path → x ∈ a2 := fun x hx =>
      mem_of_mem_dropWhile (hr0 ▸ mem_of_mem_dropWhile (hpath ▸ hx))
    refine ⟨?_, ?_, ?_, ?_, ?_, ?_, ?_⟩
    · rcases hsch with ⟨hs, _⟩ | hs <;> rw [hs]
      · exact .inl rfl
      · exact .inr rfl
    · show host ≠ []
      simpa [List.isEmpty_iff] using hh
    · intro x hx
      refine ⟨?_, ?_, ?_⟩
      · have := takeWhile_mem_pred (hhost ▸ hx)
        simpa using this
      · exact fun he => hnh2 (he ▸ hmem_a2 x hx)
      · exact fun he => hnq2 (he ▸ hmem_a2 x hx)
    · show ∃ q, (normPath path) = '/' :: q
      cases hc : path with
      | nil => exact ⟨[], rfl⟩
      | cons c cz =>
        have hcp := dropWhile_head_pred (hpath.symm.trans hc)
        have : c = '/' := by simpa using hcp
        subst this
        exact ⟨cz, rfl⟩
    · show '#' ∉ normPath path
      unfold normPath
      split_ifs with he
      · simp
      · intro hm
        exact hnh2 (hmem_path_a2 _ hm)
    · show '?' ∉ normPath path
      unfold normPath
      split_ifs with he
      · simp
      · intro hm
        exact hnq2 (hmem_path_a2 _ hm)
    · show fragEncode (fragEncode _) = fragEncode _
      exact fragEncode_idem _

theorem notAbs_of_slash {s : String} (h : leadsWith "/" s = true) :
    (leadsWith "http://" s || leadsWith "https://" s) = false := by
  rcases leadsWithChars_ex (show leadsWithChars ['/'] s.data = true from h) with ⟨t, ht⟩
  unfold leadsWith
  rw [ht]
  rfl

theorem notAbs_relOut {u : URLRec} (hg : GoodRel u) :
    (leadsWith "http://" (String.mk (relOut u)) ||
      leadsWith "https://" (String.mk (relOut u))) = false := by
  rcases hg.path_shape with ⟨r, hpath, _⟩
  unfold leadsWith relOut
  show (leadsWithChars "http://".data (u.pathname.data ++ renderSearch u.params ++ renderHash u.frag) ||
    leadsWithChars "https://".data (u.pathname.data ++ renderSearch u.params ++ renderHash u.frag)) = false
  rw [hpath]
  rfl

theorem isAbs_absOut {u : URLRec} (hsch : u.scheme = "http" ∨ u.scheme = "https") :
    (leadsWith "http://" (String.mk (absOut u)) ||
      leadsWith "https://" (String.mk (absOut u))) = true := by
  unfold leadsWith absOut
  rcases hsch with h | h <;> rw [h] <;> rfl

theorem encodeUrl_eq_cond (url : String) (params : List (String × Prim)) :
    encodeUrl url params =
      (if (leadsWith "http://" url || leadsWith "https://" url) = true then
        match parseURL url none with
        | .error e => .error e
        | .ok u => .ok (String.mk (absOut { u with params := applyParams u.params params }))
      else
        match parseURL url (some localhostBase) with
        | .error e => .error e
        | .ok u => .ok (String.mk (relOut { u with params := applyParams u.params params }))) := by
  unfold encodeUrl
  dsimp only
  by_cases h : (leadsWith "http://" url || leadsWith "https://" url) = true
  · simp only [if_pos h]
  · simp only [if_neg h]

theorem goodRel_update {u : URLRec} (hg : GoodRel u) (q : List (String × String)) :
    GoodRel { u with params := q } :=
  ⟨hg.scheme_eq, hg.host_eq, hg.path_shape, hg.no_hash, hg.no_q, hg.frag_enc⟩

theorem goodAbs_update {u : URLRec} (hg : GoodAbs u) (q : List (String × String)) :
    GoodAbs { u with params := q } :=
  ⟨hg.scheme_eq, hg.host_ne, hg.host_ok, hg.path_shape, hg.no_hash, hg.no_q, hg.frag_enc⟩

theorem update_params_self (u : URLRec) : ({ u with params := u.params } : URLRec) = u := rfl

theorem encodeUrl_idem_general {url s : String} {params : List (String × Prim)}
    (hnd : (pKeys params).Nodup)
    (hdom : (leadsWith "/" url = true ∧ leadsWith "//" url = false) ∨
      (leadsWith "http://" url || leadsWith "https://" url) = true)
    (h : encodeUrl url params = .ok s) : encodeUrl s params = .ok s := by
  rcases hdom with ⟨hd1, hd2⟩ | habs
  · have hna := notAbs_of_slash hd1
    rw [encodeUrl_eq_cond, if_neg (by rw [hna]; exact Bool.false_ne_true)] at h
    cases hu : parseURL url (some localhostBase) with
    | error e =>
      rw [hu] at h
      exact absurd h (by simp)
    | ok u =>
      rw [hu] at h
      have hs : String.mk (relOut { u with params := applyParams u.params params }) = s :=
        Except.ok.inj h
      have hgood : GoodRel u := parse_rel_good hd1 hd2 hu
      have hgood2 : GoodRel { u with params := applyParams u.params params } :=
        goodRel_update hgood _
      rw [encodeUrl_eq_cond, if_neg (by
        rw [← hs, notAbs_relOut hgood2]
        exact Bool.false_ne_true)]
      have hparse2 : parseURL s (some localhostBase) =
          .ok { u with params := applyParams u.params params } := by
        rw [← hs]
        exact parseChars_relOut hgood2
      rw [hparse2]
      have hidem : applyParams (applyParams u.params params) params =
          applyParams u.params params := applyParams_idem hnd u.params
      show Except.ok (String.mk (relOut { u with
        params := applyParams (applyParams u.params params) params })) = Except.ok s
      rw [hidem, hs]
  · rw [encodeUrl_eq_cond, if_pos habs] at h
    cases hu : parseURL url none with
    | error e =>
      rw [hu] at h
      exact absurd h (by simp)
    | ok u =>
      rw [hu] at h
      have hs : String.mk (absOut { u with params := applyParams u.params params }) = s :=
        Except.ok.inj h
      have hgood : GoodAbs u := parse_abs_good_http (by
        rcases (Bool.or_eq_true _ _).mp habs with h1 | h1
        · exact .inl h1
        · exact .inr h1) hu
      have hgood2 : GoodAbs { u with params := applyParams u.params params } :=
        goodAbs_update hgood _
      rw [encodeUrl_eq_cond, if_pos (by rw [← hs]; exact isAbs_absOut hgood2.scheme_eq)]
      have hparse2 : parseURL s none =
          .ok { u with params := applyParams u.params params } := by
        rw [← hs]
        exact parseChars_absOut hgood2
      rw [hparse2]
      have hidem : applyParams (applyParams u.params params) params =
          applyParams u.params params := applyParams_idem hnd u.params
      show Except.ok (String.mk (absOut { u with
        params := applyParams (applyParams u.params params) params })) = Except.ok s
      rw [hidem, hs]

/-- Modelled from the spec: the accepted parameter-source shapes of the
variadic merger (spec section 9: `ParameterSource = Mapping | PairList |
QueryText | ParamCollection`).  The implementation of the exported
`encodeUrlParams` function is not among the provided sources; only its
tests (`src/string.test.ts`) and the spec describe it. -/
inductive Source where
  | mapping (entries : List (String × Prim))
  | pairs (entries : List (String × Prim))
  | queryText (s : String)
  | collection (entries : List (String × String))
deriving Repr, DecidableEq

/-- Modelled from the spec: normalize any source variant to an ordered pair
sequence (a mapping's entries in insertion order; a pair sequence as-is; a
query string parsed left-to-right, dropping an optional leading `?`; an
existing parameter collection's entries). -/
def normalizeSource : Source → List (String × Prim)
  | .mapping es => es
  | .pairs es => es
  | .queryText s =>
      (parseQueryChars (if leadsWithChars ['?'] s.data then s.data.drop 1 else s.data)).map
        fun p => (p.1, Prim.str p.2)
  | .collection es => es.map fun p => (p.1, Prim.str p.2)

/-- Modelled from the spec: the working query-parameter collection after
applying each source, in argument order, to the parameters seeded from the
base. -/
def mergedParams (q : List (String × String)) (sources : List Source) :
    List (String × String) :=
  sources.foldl (fun acc src => applyParams acc (normalizeSource src)) q

/-- Modelled from the spec: `mergeUrlParams(base, ...sources)` (the
repository's `encodeUrlParams`): parse `base` exactly as `encodeUrl` does,
fold every source over the working collection in argument order, then
reassemble the URL. -/
def mergeUrlParams (base : String) (sources : List Source) : Except String String :=
  let isAbsolute := leadsWith "http://" base || leadsWith "https://" base
  match (if isAbsolute then parseURL base none else parseURL base (some localhostBase)) with
  | .error e => .error e
  | .ok u =>
    let u2 : URLRec := { u with params := mergedParams u.params sources }
    .ok (String.mk (if isAbsolute then absOut u2 else relOut u2))

example : mergeUrlParams "/api"
    [.mapping [("limit", .num 10 ""), ("page", .num 1 "")],
     .mapping [("limit", .num 20 ""), ("sort", .str "date")],
     .mapping [("filter", .str "active")]] =
    .ok "/api?limit=20&page=1&sort=date&filter=active" := by decide

example : mergeUrlParams "/api"
    [.collection [("q", "search term")], .pairs [("page", .num 1 "")],
     .mapping [("limit", .num 50 "")], .queryText "sort=date"] =
    .ok "/api?q=search+term&page=1&limit=50&sort=date" := by decide

example : mergeUrlParams "/api"
    [.mapping [("a", .num 1 ""), ("b", .num 2 ""), ("c", .num 3 "")],
     .mapping [("b", .null)], .mapping [("c", .undef), ("d", .num 4 "")]] =
    .ok "/api?a=1&d=4" := by decide

theorem mergedParams_flatten (q : List (String × String)) (sources : List Source) :
    mergedParams q sources = applyParams q (sources.map normalizeSource).flatten := by
  induction sources generalizing q with
  | nil => rfl
  | cons src rest ih =>
    show mergedParams (applyParams q (normalizeSource src)) rest = _
    rw [ih]
    unfold applyParams
    rw [List.map_cons, List.flatten_cons, List.foldl_append]

theorem mergeUrlParams_eq_single (base : String) (sources : List Source) :
    mergeUrlParams base sources =
      mergeUrlParams base [.pairs (sources.map normalizeSource).flatten] := by
  unfold mergeUrlParams
  dsimp only
  cases (if (leadsWith "http://" base || leadsWith "https://" base) = true
      then parseURL base none else parseURL base (some localhostBase)) with
  | error e => rfl
  | ok u =>
    simp [mergedParams_flatten, normalizeSource]

theorem parseChars_slash_ok {s : Chars} (h1 : leadsWithChars ['/'] s = true)
    (h2 : leadsWithChars ['/', '/'] s = false) :
    ∃ u, parseChars s (some localhostBase) = .ok u := by
  rcases leadsWithChars_ex h1 with ⟨r, rfl⟩
  have hshape : ['/'] ++ r = '/' :: r := rfl
  rw [hshape] at h2 ⊢
  have hns : headNotSlash r := by
    cases r with
    | nil => trivial
    | cons d ds =>
      intro hd
      subst hd
      simp [leadsWithChars] at h2
  rw [parseChars_eq]
  rw [splitFirst_cons_ne (show ('/' : Char) ≠ '#' from by decide)]
  rw [splitFirst_cons_ne (show ('/' : Char) ≠ '?' from by decide)]
  dsimp only
  set a1 := (splitFirst '#' r).1 with ha1
  set a2 := (splitFirst '?' a1).1 with ha2
  rcases splitFirst_fst_front '#' r with ⟨t1, ht1⟩
  rcases splitFirst_fst_front '?' a1 with ⟨t2, ht2⟩
  have hns2 : headNotSlash a2 := by
    cases hc : a2 with
    | nil => trivial
    | cons c2 cz =>
      rcases head_of_front ⟨t2, ht2⟩ hc with ⟨ys, hys⟩
      rcases head_of_front ⟨t1, ht1⟩ hys with ⟨zs, hzs⟩
      rw [hzs] at hns
      exact hns
  rw [parseMain, takeScheme_slash]
  have hlw2 : leadsWithChars ['/', '/'] ('/' :: a2) = false := by
    cases hc : a2 with
    | nil => rfl
    | cons hd tl =>
      have hne : hd ≠ '/' := by rw [hc] at hns2; exact hns2
      have hb : ('/' == hd) = false := beq_eq_false_iff_ne.mpr (fun hh => hne hh.symm)
      simp [leadsWithChars, hb]
  rw [parseRelative, hlw2]
  simp only [Bool.false_eq_true, if_false]
  rw [if_pos (show leadsWithChars ['/'] ('/' :: a2) = true from rfl)]
  exact ⟨_, rfl⟩

theorem encodeUrl_isOk_eq (url : String) (params : List (String × Prim)) :
    (encodeUrl url params).isOk =
      (if (leadsWith "http://" url || leadsWith "https://" url) = true
       then (parseURL url none).isOk
       else (parseURL url (some localhostBase)).isOk) := by
  rw [encodeUrl_eq_cond]
  by_cases h : (leadsWith "http://" url || leadsWith "https://" url) = true
  · rw [if_pos h, if_pos h]
    cases parseURL url none <;> rfl
  · rw [if_neg h, if_neg h]
    cases parseURL url (some localhostBase) <;> rfl

theorem encodeUrl_slash_ok {url : String} (h1 : leadsWith "/" url = true)
    (h2 : leadsWith "//" url = false) (params : List (String × Prim)) :
    (encodeUrl url params).isOk = true := by
  rw [encodeUrl_isOk_eq, if_neg (by rw [notAbs_of_slash h1]; exact Bool.false_ne_true)]
  rcases parseChars_slash_ok h1 h2 with ⟨u, hu⟩
  rw [show parseURL url (some localhostBase) = parseChars url.data (some localhostBase) from rfl,
    hu]
  rfl

theorem leadsWithChars_frag {pat p f : Chars} (h : '#' ∉ pat) :
    leadsWithChars pat (p ++ '#' :: f) = leadsWithChars pat p := by
  induction pat generalizing p with
  | nil => rfl
  | cons c cs ih =>
    have hc : c ≠ '#' := fun he => h (by simp [he])
    cases p with
    | nil =>
      have hb : (c == '#') = false := beq_eq_false_iff_ne.mpr hc
      simp [leadsWithChars, hb]
    | cons d ds =>
      show (c == d && leadsWithChars cs (ds ++ '#' :: f)) = (c == d && leadsWithChars cs ds)
      rw [ih (fun he => h (List.mem_cons_of_mem _ he))]

theorem parseRelative_frag (p : Chars) (ps : List (String × String)) (frag : Chars)
    (b : URLRec) :
    parseRelative p ps frag b =
      (parseRelative p ps [] b).map (fun u => { u with frag := String.mk frag }) := by
  unfold parseRelative
  dsimp only
  split_ifs <;> rfl

theorem parseSpecialAuthority_frag (scheme rest : Chars) (ps : List (String × String))
    (frag : Chars) :
    parseSpecialAuthority scheme rest ps frag =
      (parseSpecialAuthority scheme rest ps []).map
        (fun u => { u with frag := String.mk frag }) := by
  unfold parseSpecialAuthority
  dsimp only
  split_ifs <;> rfl

theorem parseMain_frag (core : Chars) (ps : List (String × String)) (frag : Chars)
    (base : Option URLRec) :
    parseMain core ps frag base =
      (parseMain core ps [] base).map (fun u => { u with frag := String.mk frag }) := by
  unfold parseMain
  cases takeScheme core with
  | none =>
    cases base with
    | none => rfl
    | some b => exact parseRelative_frag core ps frag b
  | some pr =>
    rcases pr with ⟨scheme, rest⟩
    dsimp only
    by_cases hs : isSpecialScheme scheme = true
    · rw [if_pos hs, if_pos hs]
      cases base with
      | none => exact parseSpecialAuthority_frag scheme rest ps frag
      | some b =>
        dsimp only
        by_cases hb : scheme = b.scheme.data ∧ ¬ leadsWithChars ['/', '/'] rest = true
        · rw [if_pos hb, if_pos hb]
          exact parseRelative_frag rest ps frag b
        · rw [if_neg hb, if_neg hb]
          exact parseSpecialAuthority_frag scheme rest ps frag
    · rw [if_neg hs, if_neg hs]
      by_cases h2 : leadsWithChars ['/', '/'] rest = true
      · rw [if_pos h2, if_pos h2]
        rfl
      · rw [if_neg h2, if_neg h2]
        rfl

theorem parseChars_frag_split {p : Chars} (h : '#' ∉ p) (f : Chars)
    (base : Option URLRec) :
    parseChars (p ++ '#' :: f) base =
      (parseChars p base).map (fun u => { u with frag := String.mk (fragEncode f) }) ∧
    (∀ u, parseChars p base = .ok u → u.frag = "") := by
  have hsp : splitFirst '#' p = (p, none) := splitFirst_not_mem h
  constructor
  · rw [parseChars_eq, parseChars_eq, splitFirst_append h f, hsp]
    dsimp only
    rw [parseMain_frag, show fragEncode ((none : Option Chars).getD []) = [] from rfl]
    rfl
  · intro u hu
    rw [parseChars_eq, hsp] at hu
    dsimp only at hu
    rw [parseMain_frag, show fragEncode ((none : Option Chars).getD []) = [] from rfl] at hu
    cases hm : parseMain (splitFirst '?' p).1
        (parseQueryChars ((splitFirst '?' p).2.getD [])) [] base with
    | error e => rw [hm] at hu; exact absurd hu (by simp [Except.map])
    | ok v =>
      rw [hm] at hu
      have := Except.ok.inj hu
      rw [← this]

theorem mk_append (a b : Chars) : String.mk (a ++ b) = String.mk a ++ String.mk b := rfl

theorem absOut_frag (u : URLRec) (q : List (String × String)) (F : String) :
    absOut ⟨u.scheme, u.host, u.pathname, q, F⟩ =
      absOut ⟨u.scheme, u.host, u.pathname, q, ""⟩ ++ renderHash F := by
  unfold absOut
  dsimp only
  rw [show renderHash "" = [] from rfl, List.append_nil]

theorem relOut_frag (u : URLRec) (q : List (String × String)) (F : String) :
    relOut ⟨u.scheme, u.host, u.pathname, q, F⟩ =
      relOut ⟨u.scheme, u.host, u.pathname, q, ""⟩ ++ renderHash F := by
  unfold relOut
  dsimp only
  rw [show renderHash "" = [] from rfl, List.append_nil]

theorem encodeUrl_with_frag {p f : String} (h : '#' ∉ p.data)
    (params : List (String × Prim)) :
    encodeUrl (p ++ "#" ++ f) params =
      (encodeUrl p params).map
        (fun s => s ++ String.mk (renderHash (String.mk (fragEncode f.data)))) := by
  have hdata : (p ++ "#" ++ f).data = p.data ++ '#' :: f.data := by
    rw [String.data_append, String.data_append]
    rw [show ("#" : String).data = ['#'] from rfl, List.append_assoc]
    rfl
  have hc1 : leadsWith "http://" (p ++ "#" ++ f) = leadsWith "http://" p := by
    unfold leadsWith
    rw [hdata]
    exact leadsWithChars_frag (by decide)
  have hc2 : leadsWith "https://" (p ++ "#" ++ f) = leadsWith "https://" p := by
    unfold leadsWith
    rw [hdata]
    exact leadsWithChars_frag (by decide)
  have hsplit := parseChars_frag_split h f.data
  rw [encodeUrl_eq_cond, encodeUrl_eq_cond, hc1, hc2]
  by_cases hab : (leadsWith "http://" p || leadsWith "https://" p) = true
  · rw [if_pos hab, if_pos hab]
    rcases hsplit none with ⟨hmap, hfr⟩
    rw [show parseURL (p ++ "#" ++ f) none = parseChars (p.data ++ '#' :: f.data) none from by
      rw [← hdata]; rfl]
    rw [show parseURL p none = parseChars p.data none from rfl]
    rw [hmap]
    cases hu : parseChars p.data none with
    | error e => rfl
    | ok u =>
      dsimp only [Except.map]
      have hfru : u.frag = "" := hfr u hu
      show Except.ok (String.mk (absOut ⟨u.scheme, u.host, u.pathname,
        applyParams u.params params, String.mk (fragEncode f.data)⟩)) = _
      rw [absOut_frag ⟨u.scheme, u.host, u.pathname, u.params, u.frag⟩]
      dsimp only
      rw [mk_append]
      show _ = Except.ok (String.mk (absOut ⟨u.scheme, u.host, u.pathname,
          applyParams u.params params, u.frag⟩) ++
        String.mk (renderHash (String.mk (fragEncode f.data))))
      rw [hfru]
  · rw [if_neg hab, if_neg hab]
    rcases hsplit (some localhostBase) with ⟨hmap, hfr⟩
    rw [show parseURL (p ++ "#" ++ f) (some localhostBase) =
        parseChars (p.data ++ '#' :: f.data) (some localhostBase) from by
      rw [← hdata]; rfl]
    rw [show parseURL p (some localhostBase) = parseChars p.data (some localhostBase) from rfl]
    rw [hmap]
    cases hu : parseChars p.data (some localhostBase) with
    | error e => rfl
    | ok u =>
      dsimp only [Except.map]
      have hfru : u.frag = "" := hfr u hu
      show Except.ok (String.mk (relOut ⟨u.scheme, u.host, u.pathname,
        applyParams u.params params, String.mk (fragEncode f.data)⟩)) = _
      rw [relOut_frag ⟨u.scheme, u.host, u.pathname, u.params, u.frag⟩]
      dsimp only
      rw [mk_append]
      show _ = Except.ok (String.mk (relOut ⟨u.scheme, u.host, u.pathname,
          applyParams u.params params, u.frag⟩) ++
        String.mk (renderHash (String.mk (fragEncode f.data))))
      rw [hfru]

/-- C1: the URL parameter merger accepts zero or more parameter sources
after the base and applies them strictly in argument order (merging the
sources is the same as merging their concatenated normalized entries),
later sources overriding earlier ones per key (the last write for a key is
what `get` returns); in particular merging the three example mappings into
`/api` returns `/api?limit=20&page=1&sort=date&filter=active`. -/
theorem mergeUrlParams_sources_in_order :
    (mergeUrlParams "/api"
      [.mapping [("limit", .num 10 ""), ("page", .num 1 "")],
       .mapping [("limit", .num 20 ""), ("sort", .str "date")],
       .mapping [("filter", .str "active")]] =
      .ok "/api?limit=20&page=1&sort=date&filter=active") ∧
    (∀ (base : String) (sources : List Source),
      mergeUrlParams base sources =
        mergeUrlParams base [.pairs (sources.map normalizeSource).flatten]) ∧
    (∀ (q : List (String × String)) (sources : List Source) (k v : String),
      lastWrite k (sources.map normalizeSource).flatten = some (some v) →
      spGet k (mergedParams q sources) = some v) := by
  refine ⟨by decide, mergeUrlParams_eq_single, ?_⟩
  intro q sources k v hl
  rw [mergedParams_flatten, spGet_applyParams, hl]

/-- C1 witness: the override property applied at a concrete input. -/
theorem mergeUrlParams_sources_in_order_app :
    spGet "limit" (mergedParams []
      [.mapping [("limit", Prim.num 10 "")], .mapping [("limit", Prim.num 20 "")]]) =
      some "20" :=
  mergeUrlParams_sources_in_order.2.2 []
    [.mapping [("limit", Prim.num 10 "")], .mapping [("limit", Prim.num 20 "")]]
    "limit" "20" (by decide)

/-- C2: a key whose value is the null or undefined removal marker is absent
from the merged collection, whatever the base's existing query held, and
the worked example returns `/search?limit=50`. -/
theorem encodeUrl_null_removes_key :
    (∀ (q : List (String × String)) (params : List (String × Prim)) (k : String),
      (pKeys params).Nodup →
      ((k, Prim.null) ∈ params ∨ (k, Prim.undef) ∈ params) →
      spGet k (applyParams q params) = none) ∧
    encodeUrl "/search?limit=200&foo=bar" [("foo", .null), ("limit", .num 50 "")] =
      .ok "/search?limit=50" := by
  refine ⟨?_, by decide⟩
  intro q params k hnd hmem
  rw [spGet_applyParams]
  rcases hmem with hm | hm
  · rw [lastWrite_nodup hnd hm]
    rfl
  · rw [lastWrite_nodup hnd hm]
    rfl

/-- C2 witness: removal applied at a concrete input where the base held a
concrete value. -/
theorem encodeUrl_null_removes_key_app :
    spGet "foo" (applyParams [("foo", "bar")] [("foo", Prim.null)]) = none :=
  encodeUrl_null_removes_key.1 [("foo", "bar")] [("foo", Prim.null)] "foo"
    (by decide) (.inl (by decide))

/-- C3 counterexample: the key `a` is assigned the non-null value `1` by
the base query of `/api?a=1`, yet after merging `{a: null}` the output is
`/api`, not the claimed serialization of the last non-null assignment
`a=1`. -/
theorem encodeUrl_last_nonnull_value_cex :
    encodeUrl "/api?a=1" [("a", Prim.null)] = .ok "/api" ∧
    spGet "a" (applyParams [("a", "1")] [("a", Prim.null)]) = none ∧
    ("/api" : String) ≠ "/api?a=1" := by decide

/-- C3 amended: the value `get` returns after the merge is the last
assignment for the key (its string form when non-null, absence when the
last assignment is a removal, the base value when untouched), and for
removal-free parameter sets the key order of the result is the base order
with unseen keys appended, i.e. upsert keeps an existing key in place, as
the concrete merge of `limit=20` into `/api?limit=10&page=3` also shows. -/
theorem encodeUrl_upsert_semantics :
    (∀ (q : List (String × String)) (kvs : List (String × Prim)) (k : String),
      spGet k (applyParams q kvs) =
        (match lastWrite k kvs with
         | some (some v) => some v
         | some none => none
         | none => spGet k q)) ∧
    (∀ (q : List (String × String)) (kvs : List (String × Prim)),
      (keysOf q).Nodup → (pKeys kvs).Nodup →
      (∀ e ∈ kvs, entryVal e.2 ≠ none) →
      keysOf (applyParams q kvs) =
        keysOf q ++ (pKeys kvs).filter (fun x => decide (x ∉ keysOf q))) ∧
    encodeUrl "/api?limit=10&page=3" [("limit", .num 20 "")] =
      .ok "/api?limit=20&page=3" := by
  refine ⟨fun q kvs k => spGet_applyParams k q kvs, ?_, by decide⟩
  intro q kvs h1 h2 h3
  exact keysOf_applyParams h1 h2 h3

/-- C3 witness: the key-order equation applied at a concrete input. -/
theorem encodeUrl_upsert_semantics_app :
    keysOf (applyParams [("a", "1")] [("b", Prim.num 2 "")]) =
      keysOf [("a", "1")] ++
        (pKeys [("b", Prim.num 2 "")]).filter
          (fun x => decide (x ∉ keysOf [("a", "1")])) :=
  encodeUrl_upsert_semantics.2.1 [("a", "1")] [("b", Prim.num 2 "")]
    (by decide) (by decide) (by decide)

/-- C4 counterexample: for the base `mailto:a@b` (a URL with an opaque
path) the first merge returns `a@b?q=1`, and merging the same mapping into
that output returns `/a@b?q=1`, so `encodeUrl` is not idempotent on every
base. -/
theorem encodeUrl_idempotence_cex :
    encodeUrl "mailto:a@b" [("q", Prim.num 1 "")] = .ok "a@b?q=1" ∧
    encodeUrl "a@b?q=1" [("q", Prim.num 1 "")] = .ok "/a@b?q=1" ∧
    ("/a@b?q=1" : String) ≠ "a@b?q=1" := by decide

/-- C4 amended: merging is idempotent for a fixed parameter mapping on the
documented base shapes — root-relative bases (`/...` but not `//...`) and
absolute `http(s)://` bases: reapplying the same mapping to the returned
string returns that string unchanged. -/
theorem encodeUrl_idempotent_documented_bases {url s : String}
    {params : List (String × Prim)} (hnd : (pKeys params).Nodup)
    (hdom : (leadsWith "/" url = true ∧ leadsWith "//" url = false) ∨
      (leadsWith "http://" url || leadsWith "https://" url) = true)
    (h : encodeUrl url params = .ok s) : encodeUrl s params = .ok s :=
  encodeUrl_idem_general hnd hdom h

/-- C4 witness: idempotence applied at a concrete input. -/
theorem encodeUrl_idempotent_documented_bases_app :
    encodeUrl "/search?limit=50" [("foo", Prim.null), ("limit", Prim.num 50 "")] =
      .ok "/search?limit=50" :=
  @encodeUrl_idempotent_documented_bases "/search?limit=200&foo=bar" "/search?limit=50"
    [("foo", Prim.null), ("limit", Prim.num 50 "")]
    (by decide) (.inl ⟨by decide, by decide⟩) (by decide)

/-- C5 counterexample: the fragment `a b` of `/p#a b` is percent-encoded
to `a%20b` in the output, so fragments are not preserved verbatim. -/
theorem encodeUrl_fragment_verbatim_cex :
    encodeUrl "/p#a b" [] = .ok "/p#a%20b" ∧
    ("/p#a%20b" : String) ≠ "/p#a b" := by decide

/-- C5 amended: for every base carrying a `#fragment`, the output is the
fragment-free merge result with `#` plus the fragment appended after the
query string, the fragment preserved up to the standard WHATWG fragment
percent-encoding (verbatim when no encoded characters occur, as in the
`/page#section1` example). -/
theorem encodeUrl_fragment_after_query :
    (∀ (p f : String) (params : List (String × Prim)), '#' ∉ p.data →
      encodeUrl (p ++ "#" ++ f) params =
        (encodeUrl p params).map
          (fun s => s ++ String.mk (renderHash (String.mk (fragEncode f.data))))) ∧
    encodeUrl "/page#section1" [("q", .str "test")] = .ok "/page?q=test#section1" := by
  refine ⟨?_, by decide⟩
  intro p f params h
  exact encodeUrl_with_frag h params

/-- C5 witness: the fragment equation applied at a concrete input. -/
theorem encodeUrl_fragment_after_query_app :
    encodeUrl ("/page" ++ "#" ++ "sec tion") [] =
      (encodeUrl "/page" []).map
        (fun s => s ++ String.mk (renderHash (String.mk (fragEncode "sec tion".data)))) :=
  encodeUrl_fragment_after_query.1 "/page" "sec tion" [] (by decide)

/-- C6 counterexample: `ftp://` fails the `^https?://` scheme check, so the
claim says it is never rejected, yet `encodeUrl` raises `Invalid URL` on it
(its authority is empty for a special scheme). -/
theorem encodeUrl_error_only_absolute_cex :
    (leadsWith "http://" "ftp://" || leadsWith "https://" "ftp://") = false ∧
    encodeUrl "ftp://" [] = .error "Invalid URL" := by decide

/-- C6 amended: the merge returns a value exactly when the underlying URL
parse succeeds — for `^https?://` bases the standalone parse, otherwise
the parse against the synthetic `http://localhost` base, which can also
fail for scheme-bearing bases such as `ftp://`; a root-relative base
(`/...` but not `//...`) is never rejected, and on success the call
returns a fully formed string. -/
theorem encodeUrl_error_conditions :
    (∀ (url : String) (params : List (String × Prim)),
      (encodeUrl url params).isOk =
        (if (leadsWith "http://" url || leadsWith "https://" url) = true
         then (parseURL url none).isOk
         else (parseURL url (some localhostBase)).isOk)) ∧
    (∀ (url : String) (params : List (String × Prim)),
      leadsWith "/" url = true → leadsWith "//" url = false →
      (encodeUrl url params).isOk = true) := by
  refine ⟨encodeUrl_isOk_eq, ?_⟩
  intro url params h1 h2
  exact encodeUrl_slash_ok h1 h2 params

/-- C6 witness: a root-relative base is accepted. -/
theorem encodeUrl_error_conditions_app :
    (encodeUrl "/a" []).isOk = true :=
  encodeUrl_error_conditions.2 "/a" [] (by decide) (by decide)

/-- C7 counterexample: a parsed URL handle passed as base is modified by
the call — after `encodeUrl(new URL("https://google.com/?q=foo"), {q:
"bar"})` the handle's query holds `q=bar`, not its original state. -/
theorem encodeUrl_pure_handle_cex :
    parseURL "https://google.com/?q=foo" none =
      .ok ⟨"https", "google.com", "/", [("q", "foo")], ""⟩ ∧
    (encodeUrlOnURL ⟨"https", "google.com", "/", [("q", "foo")], ""⟩
       [("q", Prim.str "bar")]).2 ≠
      ⟨"https", "google.com", "/", [("q", "foo")], ""⟩ := by decide

/-- C7 amended: string bases and parameter sources are unaffected (they
are immutable values in the model), but a URL handle passed as base is
updated in place: after the call the handle equals its old state with the
merged parameters written into its query, it is unchanged exactly when
the merge leaves its parameters unchanged, and the returned string is the
mutated handle's `href`. -/
theorem encodeUrl_handle_mutation_spec :
    ∀ (u : URLRec) (params : List (String × Prim)),
      (encodeUrlOnURL u params).2 = { u with params := applyParams u.params params } ∧
      (encodeUrlOnURL u params).1 =
        String.mk (absOut { u with params := applyParams u.params params }) ∧
      ((encodeUrlOnURL u params).2 = u ↔ applyParams u.params params = u.params) := by
  intro u params
  refine ⟨rfl, rfl, ?_⟩
  constructor
  · intro hh
    have h2 := congrArg URLRec.params hh
    simpa using h2
  · intro hh
    show ({ u with params := applyParams u.params params } : URLRec) = u
    rw [hh]

/-- C8: non-removal values are coerced by default string conversion
(booleans to `true`/`false`, decimal numbers such as `98.6` to `"98.6"`),
the query is form-urlencoded with space as `+` and pairs joined by `&`,
and the worked example returns `/search?limit=200&query=foo+bar`. -/
theorem encodeUrl_coercion_serialization :
    encodeUrl "/search"
      [("a", .null), ("limit", .num 200 ""), ("query", .str "foo bar"), ("z", .undef)] =
      .ok "/search?limit=200&query=foo+bar" ∧
    (∀ b : Bool, primToString (.bool b) = if b then "true" else "false") ∧
    primToString (.num 98 "6") = "98.6" ∧
    formEncodeChars " ".data = ['+'] ∧
    (∀ kv1 kv2 : String × String,
      joinAmp [serializePair kv1, serializePair kv2] =
        serializePair kv1 ++ '&' :: serializePair kv2) :=
  ⟨by decide, fun b => rfl, by decide, by decide, fun kv1 kv2 => rfl⟩

/-- C9: a base string that carries a scheme but fails the `^https?://`
check is handled through the relative branch, so the result is only
`pathname + search + hash` of the parsed URL: `ftp://host/path` becomes
`/path`, `https:/one-slash` becomes `/`, and opaque `mailto:a@b` becomes
`a@b`, the scheme and authority silently dropped. -/
theorem encodeUrl_nonhttp_scheme_relative :
    (∀ (url : String) (params : List (String × Prim)) (sch rest : Chars),
      takeScheme url.data = some (sch, rest) →
      (leadsWith "http://" url || leadsWith "https://" url) = false →
      encodeUrl url params =
        match parseURL url (some localhostBase) with
        | .error e => .error e
        | .ok u => .ok (String.mk (relOut { u with params := applyParams u.params params }))) ∧
    encodeUrl "ftp://host/path" [] = .ok "/path" ∧
    encodeUrl "https:/one-slash" [] = .ok "/" ∧
    encodeUrl "mailto:a@b" [] = .ok "a@b" := by
  refine ⟨?_, by decide, by decide, by decide⟩
  intro url params sch rest hts hna
  rw [encodeUrl_eq_cond, if_neg (by rw [hna]; exact Bool.false_ne_true)]

/-- C9 witness: the relative-branch equation applied at `ftp://host/path`. -/
theorem encodeUrl_nonhttp_scheme_relative_app :
    encodeUrl "ftp://host/path" [] =
      match parseURL "ftp://host/path" (some localhostBase) with
      | .error e => .error e
      | .ok u => .ok (String.mk (relOut { u with params := applyParams u.params [] })) :=
  encodeUrl_nonhttp_scheme_relative.1 "ftp://host/path" [] "ftp".data "//host/path".data
    (by decide) (by decide)

/-- C10: only null and undefined act as removal markers — a key mapped to
the empty string stays in the merged collection with value `""` and is
serialized as `key=`. -/
theorem encodeUrl_empty_value_kept :
    (∀ (q : List (String × String)) (params : List (String × Prim)) (k : String),
      (pKeys params).Nodup → (k, Prim.str "") ∈ params →
      spGet k (applyParams q params) = some "") ∧
    encodeUrl "/p" [("k", .str "")] = .ok "/p?k=" := by
  refine ⟨?_, by decide⟩
  intro q params k hnd hmem
  rw [spGet_applyParams, lastWrite_nodup hnd hmem]
  rfl

/-- C10 witness: the empty-string value applied at a concrete input. -/
theorem encodeUrl_empty_value_kept_app :
    spGet "k" (applyParams [] [("k", Prim.str "")]) = some "" :=
  encodeUrl_empty_value_kept.1 [] [("k", Prim.str "")] "k" (by decide) (by decide)
